import Mathlib

/-!
# Verification of the hotels search pipeline

Shallow embedding of the core of `alex-user-go/hotels`:

* `internal/search/aggregator.go` — `normalizeHotel` and `Aggregator.Search`
  (normalization, merge/dedup by `hotel_id`, price sort, success/failure counts);
* `internal/search/cache/cache.go` — `Cache.Key` and `Cache.GetOrFetch`
  (TTL store predicate, single-flight);
* `internal/search/ratelimit/ratelimit.go` — `Limiter.Allow`
  (fixed-window token bucket).

Go `float64` prices are modelled by `GoFloat`: NaN, the two infinities, and
finite values as rationals, with the IEEE-754 comparison semantics that Go's
`<` and `<=` operators have (every comparison involving NaN is false).
Go monotonic time instants are modelled as `Int`; Go `int` as `Int`
(no arithmetic here ever overflows 64 bits, so no wrap-around modelling
is needed); Go strings as `String`.
-/

set_option maxHeartbeats 1000000
set_option linter.unnecessarySeqFocus false
set_option linter.unreachableTactic false
set_option linter.unusedTactic false

/-- Model of a Go `float64` as used for prices: NaN, ±infinity, or a finite
value (modelled as a rational; the claims never depend on rounding). -/
inductive GoFloat where
  | nan : GoFloat
  | ninf : GoFloat
  | val (q : ℚ) : GoFloat
  | inf : GoFloat
deriving DecidableEq, Repr

namespace GoFloat

/-- Go's `<=` on `float64`: false whenever either side is NaN. -/
def ble : GoFloat → GoFloat → Bool
  | nan, _ => false
  | _, nan => false
  | ninf, _ => true
  | _, ninf => false
  | _, inf => true
  | inf, _ => false
  | val a, val b => decide (a ≤ b)

/-- Go's `<` on `float64`: false whenever either side is NaN. -/
def blt : GoFloat → GoFloat → Bool
  | nan, _ => false
  | _, nan => false
  | ninf, ninf => false
  | ninf, _ => true
  | _, ninf => false
  | inf, _ => false
  | _, inf => true
  | val a, val b => decide (a < b)

theorem ble_trans {a b c : GoFloat} (h1 : ble a b = true) (h2 : ble b c = true) :
    ble a c = true := by
  cases a <;> cases b <;> cases c <;> simp_all [ble] <;> exact le_trans h1 h2

theorem ble_of_blt {a b : GoFloat} (h : blt a b = true) : ble a b = true := by
  cases a <;> cases b <;> simp_all [blt, ble] <;> exact le_of_lt h

/-- For non-NaN operands the Go comparisons are a linear order:
`¬(a < b)` is the same as `b ≤ a`. -/
theorem ble_of_not_blt {a b : GoFloat} (ha : a ≠ nan) (hb : b ≠ nan)
    (h : blt a b = false) : ble b a = true := by
  cases a <;> cases b <;> simp_all [blt, ble] <;> exact le_of_not_lt h

end GoFloat

/-- ASCII whitespace, as trimmed by Go's `strings.TrimSpace`.  (Go also trims
some exotic Unicode spaces; none of the claims depend on those.) -/
def goWhitespace (c : Char) : Bool :=
  c == ' ' || c == '\t' || c == '\n' || c == '\r'

/-- Model of Go `strings.TrimSpace`: drop leading and trailing whitespace. -/
def goTrim (s : String) : String :=
  ⟨((s.data.dropWhile goWhitespace).reverse.dropWhile goWhitespace).reverse⟩

/-- Model of Go `strings.ToUpper`: uppercase every character
(ASCII letters; none of the claims depend on non-ASCII case mapping). -/
def goToUpper (s : String) : String :=
  ⟨s.data.map Char.toUpper⟩

/-- `providers.Hotel` (the provider wire type): arbitrary strings and a
floating-point price.  The `providers` package itself is not under `src/`;
this structure is modelled from the spec (§3, RawHotel:
`(hotel_id, name, city, currency, price, nights)`), matching the field uses
in `normalizeHotel` and the aggregator tests. -/
structure RawHotel where
  hotelID : String
  name : String
  city : String
  currency : String
  price : GoFloat
  nights : Int
deriving DecidableEq, Repr

/-- `types.Hotel`: a normalized hotel (`internal/search/types/types.go`). -/
structure Hotel where
  hotelID : String
  name : String
  currency : String
  price : GoFloat
deriving DecidableEq, Repr

/-- `normalizeHotel` (`internal/search/aggregator.go`): trim `hotel_id` and
`name` and reject if empty, reject if `price <= 0` (Go float comparison),
trim+uppercase `currency` defaulting to `"EUR"` when empty. -/
def normalizeHotel (h : RawHotel) : Option Hotel :=
  let hotelID := goTrim h.hotelID
  if hotelID = "" then none
  else
    let name := goTrim h.name
    if name = "" then none
    else if GoFloat.ble h.price (GoFloat.val 0) then none
    else
      let currency := goToUpper (goTrim h.currency)
      let currency := if currency = "" then "EUR" else currency
      some { hotelID := hotelID, name := name, currency := currency, price := h.price }

example : normalizeHotel ⟨" H1 ", "A", "paris", " eur ", GoFloat.val 5, 2⟩ =
    some ⟨"H1", "A", "EUR", GoFloat.val 5⟩ := by decide

example : normalizeHotel ⟨"H1", "A", "paris", "EUR", GoFloat.val 0, 2⟩ = none := by decide

example : normalizeHotel ⟨"H1", "A", "paris", "EUR", GoFloat.nan, 2⟩ =
    some ⟨"H1", "A", "EUR", GoFloat.nan⟩ := by decide

/-! ## Aggregator (`Aggregator.Search`, `internal/search/aggregator.go`)

One provider goroutine settles with either an error or a list of raw hotels;
`Search` is modelled on the list of settled outcomes, processed in arrival
order (the mutex serializes the merge sections; arrival order is
nondeterministic, which is why claims quantify over all orders). -/

/-- What one provider unit contributes after `provider.Search` returns:
an error or a raw hotel list.  Errors are modelled as strings. -/
abbrev ProviderOutcome := Except String (List RawHotel)

/-- Whether a unit failed (`err != nil`). -/
def ProviderOutcome.failed : ProviderOutcome → Bool
  | .error _ => true
  | .ok _ => false

/-- One insertion into `hotelMap` (the map is modelled as an association
list keyed by `hotel_id`): on an existing key, replace only when the new
price is strictly lower (Go `<` on `float64`); otherwise add the entry. -/
def updateAssoc : List (String × Hotel) → Hotel → List (String × Hotel)
  | [], nh => [(nh.hotelID, nh)]
  | (k, v) :: rest, nh =>
    if k = nh.hotelID then
      if GoFloat.blt nh.price v.price then (k, nh) :: rest else (k, v) :: rest
    else (k, v) :: updateAssoc rest nh

/-- The whole merge stage: fold every arriving normalized hotel into the map. -/
def mergeAll (hs : List Hotel) : List (String × Hotel) :=
  hs.foldl updateAssoc []

/-- The mutable state of `Aggregator.Search` guarded by `mu`. -/
structure AggState where
  hotelMap : List (String × Hotel)
  succeeded : Nat
  failed : Nat
  errors : List String

/-- One provider unit's locked section: count the failure and record the
error, or count the success and merge the normalized hotels. -/
def aggStep (st : AggState) : ProviderOutcome → AggState
  | .error e => { st with failed := st.failed + 1, errors := st.errors ++ [e] }
  | .ok hotels =>
    { st with
      succeeded := st.succeeded + 1,
      hotelMap := hotels.foldl (fun m h =>
        match normalizeHotel h with
        | none => m
        | some nh => updateAssoc m nh) st.hotelMap }

/-- Insert a hotel into a price-sorted list, before the first strictly more
expensive entry (comparator `hotels[i].Price < hotels[j].Price`). -/
def insertByPrice (h : Hotel) : List Hotel → List Hotel
  | [] => [h]
  | a :: as => if GoFloat.blt h.price a.price then h :: a :: as else a :: insertByPrice h as

/-- Model of `sort.Slice(hotels, price <)`: for a strict-weak-order
comparator Go guarantees some sorted permutation, which this insertion
sort realizes. -/
def sortByPrice (l : List Hotel) : List Hotel :=
  l.foldr insertByPrice []

/-- `types.Result` (`internal/search/types/types.go`). -/
structure AggResult where
  hotels : List Hotel
  providersTotal : Nat
  providersSucceeded : Nat
  providersFailed : Nat
deriving DecidableEq, Repr

/-- The tail of `Aggregator.Search` after `wg.Wait()`: if any errors were
recorded and every provider failed, return the first recorded error;
otherwise flatten the map and sort by ascending price. -/
def finishSearch (total : Nat) (st : AggState) : Except String AggResult :=
  let res : AggResult :=
    { hotels := sortByPrice (st.hotelMap.map Prod.snd)
      providersTotal := total
      providersSucceeded := st.succeeded
      providersFailed := st.failed }
  match st.errors with
  | e :: _ => if st.failed = total then Except.error e else Except.ok res
  | [] => Except.ok res

/-- `Aggregator.Search`, as a function of the settled provider outcomes. -/
def searchModel (outcomes : List ProviderOutcome) : Except String AggResult :=
  finishSearch outcomes.length (outcomes.foldl aggStep ⟨[], 0, 0, []⟩)

/-- The normalized hotels contributed by the successful units, in processing
order (the sequence fed into the merge). -/
def normalizedArrivals : List ProviderOutcome → List Hotel
  | [] => []
  | .error _ :: rest => normalizedArrivals rest
  | .ok hs :: rest => hs.filterMap normalizeHotel ++ normalizedArrivals rest

/-- Number of failed units. -/
def countFailed (outcomes : List ProviderOutcome) : Nat :=
  outcomes.countP ProviderOutcome.failed

/-- First lookup of a key in the association-list model of `hotelMap`. -/
def findEntry : List (String × Hotel) → String → Option Hotel
  | [], _ => none
  | (k, v) :: rest, key => if k = key then some v else findEntry rest key

/-- Spec-side combiner (§4.3: on collision keep the entry with the strictly
lower price, ties keep the first-seen entry): leftmost minimum under Go `<`. -/
def keepLower (acc : Option Hotel) (h : Hotel) : Option Hotel :=
  match acc with
  | none => some h
  | some a => if GoFloat.blt h.price a.price then some h else some a

/-- Spec-side per-key winner: the first-seen entry among those of minimal
price, written from the spec's words for comparison with `mergeAll`. -/
def firstMin (l : List Hotel) : Option Hotel :=
  l.foldl keepLower none

/-- The keys of the association-list model of `hotelMap`. -/
def assocKeys (m : List (String × Hotel)) : List String :=
  m.map Prod.fst

/-- Adjacent-pairs check: the list is sorted by non-decreasing price
under Go `<=`. -/
def sortedByPrice : List Hotel → Bool
  | [] => true
  | [_] => true
  | a :: b :: rest => GoFloat.ble a.price b.price && sortedByPrice (b :: rest)

/-- Whether an aggregate outcome is a success. -/
def resultOk : Except String AggResult → Bool
  | .ok _ => true
  | .error _ => false

instance : DecidableEq (Except String AggResult) := fun a b =>
  match a, b with
  | .ok x, .ok y =>
    if h : x = y then .isTrue (by rw [h]) else .isFalse (by simp [h])
  | .error x, .error y =>
    if h : x = y then .isTrue (by rw [h]) else .isFalse (by simp [h])
  | .ok _, .error _ => .isFalse (by simp)
  | .error _, .ok _ => .isFalse (by simp)

example :
    searchModel [Except.ok [⟨"H1", "A", "paris", "EUR", GoFloat.val 100, 2⟩],
      Except.error "down"] =
    Except.ok ⟨[⟨"H1", "A", "EUR", GoFloat.val 100⟩], 2, 1, 1⟩ := by decide

example : searchModel [Except.error "down", Except.error "also down"] =
    Except.error "down" := by decide

example :
    searchModel [Except.ok [⟨"H1", "A", "p", "EUR", GoFloat.val 150, 1⟩],
      Except.ok [⟨"H1", "A", "p", "EUR", GoFloat.val 120, 1⟩,
        ⟨"H3", "C", "p", "EUR", GoFloat.val 180, 1⟩]] =
    Except.ok ⟨[⟨"H1", "A", "EUR", GoFloat.val 120⟩,
      ⟨"H3", "C", "EUR", GoFloat.val 180⟩], 2, 2, 0⟩ := by decide

/-! ### Merge-stage lemmas -/

theorem GoFloat.ble_refl {a : GoFloat} (h : a ≠ GoFloat.nan) : GoFloat.ble a a = true := by
  cases a <;> simp_all [GoFloat.ble]

/-- A single map insertion, seen through lookups: the inserted key is combined
with `keepLower`, every other key is untouched. -/
theorem findEntry_updateAssoc (m : List (String × Hotel)) (nh : Hotel) (key : String) :
    findEntry (updateAssoc m nh) key =
      if key = nh.hotelID then keepLower (findEntry m key) nh else findEntry m key := by
  induction m with
  | nil =>
    by_cases h : key = nh.hotelID
    · simp [updateAssoc, findEntry, keepLower, h]
    · have h2 : ¬ nh.hotelID = key := fun hh => h hh.symm
      simp [updateAssoc, findEntry, keepLower, h, h2]
  | cons p rest ih =>
    obtain ⟨k, v⟩ := p
    by_cases hk : k = nh.hotelID
    · by_cases hkey : k = key
      · have h1 : key = nh.hotelID := hkey ▸ hk
        by_cases hlt : GoFloat.blt nh.price v.price = true <;>
          simp [updateAssoc, findEntry, keepLower, hk, hkey, h1, hlt]
      · have h1 : ¬ key = nh.hotelID := fun h => hkey (hk.trans h.symm)
        have h2 : ¬ nh.hotelID = key := fun hh => h1 hh.symm
        by_cases hlt : GoFloat.blt nh.price v.price = true <;>
          simp [updateAssoc, findEntry, keepLower, hk, hkey, h1, h2, hlt]
    · by_cases hkey : k = key
      · have h1 : ¬ key = nh.hotelID := fun h => hk (hkey.trans h)
        have h2 : ¬ nh.hotelID = key := fun hh => h1 hh.symm
        simp [updateAssoc, findEntry, hk, hkey, h1, h2]
      · simp [updateAssoc, findEntry, hk, hkey, ih]

/-- The merge fold, seen through lookups: each key's entry is the
`keepLower`-fold of the arrivals carrying that key. -/
theorem findEntry_foldl_updateAssoc (hs : List Hotel) (m : List (String × Hotel)) (key : String) :
    findEntry (hs.foldl updateAssoc m) key =
      (hs.filter (fun h => h.hotelID == key)).foldl keepLower (findEntry m key) := by
  induction hs generalizing m with
  | nil => simp
  | cons h t ih =>
    rw [List.foldl_cons, ih, findEntry_updateAssoc]
    by_cases hk : h.hotelID = key
    · rw [if_pos hk.symm]
      have hb : (h.hotelID == key) = true := by simp [hk]
      simp [List.filter_cons, hb]
    · rw [if_neg (fun hh => hk hh.symm)]
      have hb : (h.hotelID == key) = false := by simp [hk]
      simp [List.filter_cons, hb]

/-- An insertion either leaves the key set unchanged (existing key) or
appends the new key. -/
theorem assocKeys_updateAssoc (m : List (String × Hotel)) (nh : Hotel) :
    assocKeys (updateAssoc m nh) =
      if nh.hotelID ∈ assocKeys m then assocKeys m else assocKeys m ++ [nh.hotelID] := by
  induction m with
  | nil => simp [assocKeys, updateAssoc]
  | cons p rest ih =>
    obtain ⟨k, v⟩ := p
    by_cases hk : k = nh.hotelID
    · by_cases hlt : GoFloat.blt nh.price v.price = true <;>
        simp [assocKeys, updateAssoc, hk, hlt]
    · have h2 : ¬ nh.hotelID = k := fun hh => hk hh.symm
      simp only [updateAssoc, if_neg hk, assocKeys, List.map_cons] at ih ⊢
      rw [ih]
      by_cases hmem : nh.hotelID ∈ List.map Prod.fst rest <;> simp [hmem, h2]

/-- Insertion preserves distinctness of the keys. -/
theorem nodup_assocKeys_updateAssoc {m : List (String × Hotel)} (nh : Hotel)
    (h : (assocKeys m).Nodup) : (assocKeys (updateAssoc m nh)).Nodup := by
  rw [assocKeys_updateAssoc]
  by_cases hmem : nh.hotelID ∈ assocKeys m
  · simpa [hmem]
  · have hdisj : (assocKeys m).Disjoint [nh.hotelID] := by
      intro a ha hb
      have ha2 : a = nh.hotelID := by simpa using hb
      exact hmem (ha2 ▸ ha)
    simpa [hmem] using List.Nodup.append h (List.nodup_singleton _) hdisj

/-- The merged map always has pairwise distinct keys. -/
theorem nodup_assocKeys_mergeAll (hs : List Hotel) : (assocKeys (mergeAll hs)).Nodup := by
  suffices H : ∀ m : List (String × Hotel), (assocKeys m).Nodup →
      (assocKeys (hs.foldl updateAssoc m)).Nodup by
    exact H [] (by simp [assocKeys])
  induction hs with
  | nil => exact fun m hm => hm
  | cons h t ih =>
    intro m hm
    rw [List.foldl_cons]
    exact ih (updateAssoc m h) (nodup_assocKeys_updateAssoc h hm)

/-- Every entry of the map after an insertion comes from the old map or is
the inserted hotel (stored under its own id). -/
theorem mem_updateAssoc {m : List (String × Hotel)} {nh : Hotel} {p : String × Hotel}
    (h : p ∈ updateAssoc m nh) : p ∈ m ∨ p = (nh.hotelID, nh) := by
  induction m with
  | nil => simpa [updateAssoc] using h
  | cons q rest ih =>
    obtain ⟨k, v⟩ := q
    by_cases hk : k = nh.hotelID
    · by_cases hlt : GoFloat.blt nh.price v.price = true
      · rcases (by simpa [updateAssoc, hk, hlt] using h : p = (k, nh) ∨ p ∈ rest) with h1 | h1
        · exact Or.inr (by simp [h1, hk])
        · exact Or.inl (List.mem_cons_of_mem _ h1)
      · rcases (by simpa [updateAssoc, hk, hlt] using h : p = (k, v) ∨ p ∈ rest) with h1 | h1
        · exact Or.inl (by simp [h1])
        · exact Or.inl (List.mem_cons_of_mem _ h1)
    · rcases (by simpa [updateAssoc, hk] using h : p = (k, v) ∨ p ∈ updateAssoc rest nh)
        with h1 | h1
      · exact Or.inl (by simp [h1])
      · rcases ih h1 with h2 | h2
        · exact Or.inl (List.mem_cons_of_mem _ h2)
        · exact Or.inr h2

/-- Every entry of the map after the merge fold comes from the starting map
or is one of the folded hotels, stored under its own id. -/
theorem mem_foldl_updateAssoc {hs : List Hotel} {m : List (String × Hotel)}
    {p : String × Hotel} (h : p ∈ hs.foldl updateAssoc m) :
    p ∈ m ∨ (p.2 ∈ hs ∧ p.1 = p.2.hotelID) := by
  induction hs generalizing m with
  | nil => exact Or.inl (by simpa using h)
  | cons x t ih =>
    rw [List.foldl_cons] at h
    rcases ih h with h1 | h1
    · rcases mem_updateAssoc h1 with h2 | h2
      · exact Or.inl h2
      · exact Or.inr (by simp [h2])
    · exact Or.inr ⟨List.mem_cons_of_mem _ h1.1, h1.2⟩

/-- Every entry of the merged map is one of the arriving hotels, stored
under its own id. -/
theorem mem_mergeAll {hs : List Hotel} {p : String × Hotel} (h : p ∈ mergeAll hs) :
    p.2 ∈ hs ∧ p.1 = p.2.hotelID := by
  rcases mem_foldl_updateAssoc (m := []) (by simpa [mergeAll] using h) with h1 | h1
  · simp at h1
  · exact h1

/-- Folding `keepLower` over a NaN-free list starting from `some a` yields a
member of `{a} ∪ l` whose price is `<=` (Go comparison) every candidate's. -/
theorem foldl_keepLower_min (l : List Hotel) (a : Hotel)
    (hnn : ∀ h ∈ l, h.price ≠ GoFloat.nan) (ha : a.price ≠ GoFloat.nan) :
    ∃ v, l.foldl keepLower (some a) = some v ∧ (v = a ∨ v ∈ l) ∧
      GoFloat.ble v.price a.price = true ∧ ∀ h ∈ l, GoFloat.ble v.price h.price = true := by
  induction l generalizing a with
  | nil => exact ⟨a, rfl, Or.inl rfl, GoFloat.ble_refl ha, by simp⟩
  | cons x t ih =>
    have hx : x.price ≠ GoFloat.nan := hnn x (List.mem_cons_self x t)
    have hnt : ∀ h ∈ t, h.price ≠ GoFloat.nan := fun h hh => hnn h (List.mem_cons_of_mem _ hh)
    by_cases hlt : GoFloat.blt x.price a.price = true
    · obtain ⟨v, hv, hvmem, hvle, hvall⟩ := ih x hnt hx
      refine ⟨v, ?_, ?_, ?_, ?_⟩
      · simpa [keepLower, hlt] using hv
      · rcases hvmem with h1 | h1
        · exact Or.inr (h1 ▸ List.mem_cons_self x t)
        · exact Or.inr (List.mem_cons_of_mem _ h1)
      · exact GoFloat.ble_trans hvle (GoFloat.ble_of_blt hlt)
      · intro h hh
        rcases List.mem_cons.mp hh with h1 | h1
        · exact h1 ▸ hvle
        · exact hvall h h1
    · obtain ⟨v, hv, hvmem, hvle, hvall⟩ := ih a hnt ha
      have hax : GoFloat.ble a.price x.price = true :=
        GoFloat.ble_of_not_blt hx ha (by simpa using hlt)
      refine ⟨v, ?_, ?_, hvle, ?_⟩
      · simpa [keepLower, hlt] using hv
      · rcases hvmem with h1 | h1
        · exact Or.inl h1
        · exact Or.inr (List.mem_cons_of_mem _ h1)
      · intro h hh
        rcases List.mem_cons.mp hh with h1 | h1
        · exact h1 ▸ GoFloat.ble_trans hvle hax
        · exact hvall h h1

/-! ### Sort lemmas -/

/-- Inserting permutes to consing. -/
theorem insertByPrice_perm (h : Hotel) (l : List Hotel) :
    List.Perm (insertByPrice h l) (h :: l) := by
  induction l with
  | nil => simp [insertByPrice]
  | cons a as ih =>
    by_cases hlt : GoFloat.blt h.price a.price = true
    · simp [insertByPrice, hlt]
    · rw [insertByPrice, if_neg hlt]
      exact (List.Perm.cons a ih).trans (List.Perm.swap h a as)

/-- The sort emits a permutation of its input (so the same hotels, with the
same multiplicities, as Go's `sort.Slice` guarantees). -/
theorem sortByPrice_perm (l : List Hotel) : List.Perm (sortByPrice l) l := by
  induction l with
  | nil => simp [sortByPrice]
  | cons x t ih =>
    have : sortByPrice (x :: t) = insertByPrice x (sortByPrice t) := rfl
    rw [this]
    exact (insertByPrice_perm x (sortByPrice t)).trans (List.Perm.cons x ih)

/-- Insertion preserves pairwise non-decreasing prices, on NaN-free hotels. -/
theorem pairwise_insertByPrice {l : List Hotel} {h : Hotel}
    (hnn : ∀ x ∈ l, x.price ≠ GoFloat.nan) (hh : h.price ≠ GoFloat.nan)
    (hp : l.Pairwise (fun a b => GoFloat.ble a.price b.price = true)) :
    (insertByPrice h l).Pairwise (fun a b => GoFloat.ble a.price b.price = true) := by
  induction l with
  | nil => simp [insertByPrice]
  | cons a as ih =>
    have hna : a.price ≠ GoFloat.nan := hnn a (List.mem_cons_self a as)
    have hnas : ∀ x ∈ as, x.price ≠ GoFloat.nan := fun x hx => hnn x (List.mem_cons_of_mem _ hx)
    rcases List.pairwise_cons.mp hp with ⟨hall, htail⟩
    by_cases hlt : GoFloat.blt h.price a.price = true
    · rw [insertByPrice, if_pos hlt]
      refine List.pairwise_cons.mpr ⟨?_, hp⟩
      intro b hb
      rcases List.mem_cons.mp hb with h1 | h1
      · exact h1 ▸ GoFloat.ble_of_blt hlt
      · exact GoFloat.ble_trans (GoFloat.ble_of_blt hlt) (hall b h1)
    · rw [insertByPrice, if_neg hlt]
      have hah : GoFloat.ble a.price h.price = true :=
        GoFloat.ble_of_not_blt hh hna (by simpa using hlt)
      refine List.pairwise_cons.mpr ⟨?_, ih hnas htail⟩
      intro b hb
      have hmem := (insertByPrice_perm h as).mem_iff.mp hb
      rcases List.mem_cons.mp hmem with h1 | h1
      · exact h1 ▸ hah
      · exact hall b h1

/-- On NaN-free hotels the sort output is pairwise non-decreasing. -/
theorem pairwise_sortByPrice {l : List Hotel}
    (hnn : ∀ x ∈ l, x.price ≠ GoFloat.nan) :
    (sortByPrice l).Pairwise (fun a b => GoFloat.ble a.price b.price = true) := by
  induction l with
  | nil => simp [sortByPrice]
  | cons x t ih =>
    have hnt : ∀ y ∈ t, y.price ≠ GoFloat.nan := fun y hy => hnn y (List.mem_cons_of_mem _ hy)
    have hst : ∀ y ∈ sortByPrice t, y.price ≠ GoFloat.nan := fun y hy =>
      hnt y ((sortByPrice_perm t).mem_iff.mp hy)
    exact pairwise_insertByPrice hst (hnn x (List.mem_cons_self x t)) (ih hnt)

/-- The adjacent-pair boolean check follows from pairwise sortedness. -/
theorem sortedByPrice_of_pairwise {l : List Hotel}
    (hp : l.Pairwise (fun a b => GoFloat.ble a.price b.price = true)) :
    sortedByPrice l = true := by
  induction l with
  | nil => rfl
  | cons a as ih =>
    rcases List.pairwise_cons.mp hp with ⟨hall, htail⟩
    cases as with
    | nil => rfl
    | cons b bs =>
      have hab : GoFloat.ble a.price b.price = true := hall b (List.mem_cons_self b bs)
      simp [sortedByPrice, hab, ih htail]

/-! ### Bookkeeping of the `Search` fold -/

/-- Number of successful units. -/
def countSucceeded (outcomes : List ProviderOutcome) : Nat :=
  outcomes.countP (fun o => !(ProviderOutcome.failed o))

/-- The recorded errors, in processing order (`errors = append(errors, err)`). -/
def errList : List ProviderOutcome → List String
  | [] => []
  | .error e :: rest => e :: errList rest
  | .ok _ :: rest => errList rest

/-- Normalizing the per-hotel `match` in the merge loop into a `filterMap`. -/
theorem foldl_norm_eq_filterMap (hs : List RawHotel) (m : List (String × Hotel)) :
    hs.foldl (fun m h =>
        match normalizeHotel h with
        | none => m
        | some nh => updateAssoc m nh) m =
      (hs.filterMap normalizeHotel).foldl updateAssoc m := by
  induction hs generalizing m with
  | nil => simp
  | cons x t ih =>
    cases hx : normalizeHotel x <;>
      simp [List.filterMap_cons, hx, ih]

/-- The state after all units settled, in terms of the whole-run summaries. -/
theorem foldl_aggStep (outcomes : List ProviderOutcome) (st : AggState) :
    outcomes.foldl aggStep st =
      ⟨(normalizedArrivals outcomes).foldl updateAssoc st.hotelMap,
        st.succeeded + countSucceeded outcomes,
        st.failed + countFailed outcomes,
        st.errors ++ errList outcomes⟩ := by
  induction outcomes generalizing st with
  | nil =>
    simp [normalizedArrivals, countSucceeded, countFailed, errList]
  | cons o rest ih =>
    cases o with
    | error e =>
      rw [List.foldl_cons, ih]
      simp [aggStep, normalizedArrivals, countSucceeded, countFailed, errList,
        List.countP_cons, ProviderOutcome.failed, Nat.add_assoc, Nat.add_comm 1]
    | ok hs =>
      rw [List.foldl_cons, ih]
      simp [aggStep, normalizedArrivals, countSucceeded, countFailed, errList,
        List.countP_cons, ProviderOutcome.failed, foldl_norm_eq_filterMap,
        List.foldl_append, Nat.add_assoc, Nat.add_comm 1]

/-- Every recorded error came from some failed unit. -/
theorem mem_errList {outcomes : List ProviderOutcome} {e : String}
    (h : e ∈ errList outcomes) : (Except.error e : ProviderOutcome) ∈ outcomes := by
  induction outcomes with
  | nil => simp [errList] at h
  | cons o rest ih =>
    cases o with
    | error x =>
      rcases List.mem_cons.mp (by simpa [errList] using h) with h1 | h1
      · simp [h1]
      · exact List.mem_cons_of_mem _ (ih h1)
    | ok hs => exact List.mem_cons_of_mem _ (ih (by simpa [errList] using h))

/-- No errors are recorded exactly when no unit failed. -/
theorem errList_eq_nil_iff {outcomes : List ProviderOutcome} :
    errList outcomes = [] ↔ countFailed outcomes = 0 := by
  induction outcomes with
  | nil => simp [errList, countFailed]
  | cons o rest ih =>
    cases o with
    | error e => simp [errList, countFailed, List.countP_cons, ProviderOutcome.failed]
    | ok hs => simpa [errList, countFailed, List.countP_cons, ProviderOutcome.failed] using ih

/-- Successes and failures partition the outcomes. -/
theorem countSucceeded_add_countFailed (outcomes : List ProviderOutcome) :
    countSucceeded outcomes + countFailed outcomes = outcomes.length := by
  induction outcomes with
  | nil => simp [countSucceeded, countFailed]
  | cons o rest ih =>
    cases o <;>
      simp [countSucceeded, countFailed, List.countP_cons, ProviderOutcome.failed] at ih ⊢ <;>
        omega

/-! ### Normalization properties -/

/-- Uppercasing a character never yields a lowercase ASCII letter. -/
theorem toUpper_not_isLower (c : Char) : c.toUpper.isLower = false := by
  by_cases h : 97 ≤ c.toNat ∧ c.toNat ≤ 122
  · have H : ∀ n, n < 123 → (97 ≤ n → (Char.ofNat (n - 32)).isLower = false) := by decide
    have hup : c.toUpper = Char.ofNat (c.toNat - 32) := by
      unfold Char.toUpper
      exact if_pos h
    rw [hup]
    exact H c.toNat (Nat.lt_succ_of_le h.2) h.1
  · have hup : c.toUpper = c := by
      unfold Char.toUpper
      exact if_neg h
    rw [hup]
    by_contra hc
    rw [Bool.not_eq_false] at hc
    simp only [Char.isLower, Bool.and_eq_true, decide_eq_true_eq] at hc
    have hb1 : (97 : Nat) ≤ c.toNat := UInt32.le_toNat_of_le (by decide) hc.1
    have hb2 : c.toNat ≤ 122 := UInt32.toNat_le_of_le (by decide) hc.2
    exact h ⟨hb1, hb2⟩

/-- The uppercased string contains no lowercase ASCII letter. -/
theorem goToUpper_not_lower (s : String) :
    ((goToUpper s).data.all fun c => !c.isLower) = true := by
  rw [List.all_eq_true]
  intro c hc
  have hc2 : c ∈ s.data.map Char.toUpper := hc
  rcases List.mem_map.mp hc2 with ⟨d, _, rfl⟩
  simp [toUpper_not_isLower]

/-- What survives normalization: non-empty id and name, a non-empty currency
with no lowercase letter, and the provider's price unchanged, with
`price <= 0` having evaluated to false. -/
theorem normalizeHotel_props {raw : RawHotel} {hh : Hotel}
    (h : normalizeHotel raw = some hh) :
    hh.hotelID ≠ "" ∧ hh.name ≠ "" ∧ hh.currency ≠ "" ∧
      (hh.currency.data.all fun c => !c.isLower) = true ∧
      GoFloat.ble hh.price (GoFloat.val 0) = false ∧ hh.price = raw.price := by
  unfold normalizeHotel at h
  by_cases h1 : goTrim raw.hotelID = ""
  · simp [h1] at h
  by_cases h2 : goTrim raw.name = ""
  · simp [h1, h2] at h
  by_cases h3 : GoFloat.ble raw.price (GoFloat.val 0) = true
  · simp [h1, h2, h3] at h
  by_cases h4 : goToUpper (goTrim raw.currency) = ""
  · rw [if_neg h1, if_neg h2, if_neg h3] at h
    have h5 : (⟨goTrim raw.hotelID, goTrim raw.name, "EUR", raw.price⟩ : Hotel) = hh := by
      apply Option.some.inj
      rw [← h]
      simp [h4]
    rw [← h5]
    refine ⟨h1, h2, ?_, ?_, by simpa using h3, rfl⟩
    · show ("EUR" : String) ≠ ""
      decide
    · show (("EUR" : String).data.all fun c => !c.isLower) = true
      decide
  · rw [if_neg h1, if_neg h2, if_neg h3] at h
    have h5 : (⟨goTrim raw.hotelID, goTrim raw.name,
        goToUpper (goTrim raw.currency), raw.price⟩ : Hotel) = hh := by
      apply Option.some.inj
      rw [← h]
      simp [h4]
    rw [← h5]
    exact ⟨h1, h2, h4, goToUpper_not_lower _, by simpa using h3, rfl⟩

/-- A price that compares `<= 0` is always rejected. -/
theorem normalizeHotel_rejects_nonpositive {raw : RawHotel}
    (h : GoFloat.ble raw.price (GoFloat.val 0) = true) : normalizeHotel raw = none := by
  unfold normalizeHotel
  by_cases h1 : goTrim raw.hotelID = ""
  · simp [h1]
  by_cases h2 : goTrim raw.name = ""
  · simp [h1, h2]
  simp [h1, h2, h]

/-- Every normalized arrival comes from some successful unit's raw list. -/
theorem mem_normalizedArrivals {outcomes : List ProviderOutcome} {hh : Hotel}
    (h : hh ∈ normalizedArrivals outcomes) :
    ∃ l, (Except.ok l : ProviderOutcome) ∈ outcomes ∧
      ∃ raw ∈ l, normalizeHotel raw = some hh := by
  induction outcomes with
  | nil => simp [normalizedArrivals] at h
  | cons o rest ih =>
    cases o with
    | error e =>
      rcases ih (by simpa [normalizedArrivals] using h) with ⟨l, hl, hraw⟩
      exact ⟨l, List.mem_cons_of_mem _ hl, hraw⟩
    | ok hs =>
      have h2 : hh ∈ hs.filterMap normalizeHotel ++ normalizedArrivals rest := h
      rcases List.mem_append.mp h2 with h1 | h1
      · rcases List.mem_filterMap.mp h1 with ⟨raw, hrawmem, hrawn⟩
        exact ⟨hs, List.mem_cons_self _ _, raw, hrawmem, hrawn⟩
      · rcases ih h1 with ⟨l, hl, hraw⟩
        exact ⟨l, List.mem_cons_of_mem _ hl, hraw⟩

/-- `searchModel`, rephrased on the whole-run summaries. -/
theorem searchModel_eq (outcomes : List ProviderOutcome) :
    searchModel outcomes =
      finishSearch outcomes.length
        ⟨mergeAll (normalizedArrivals outcomes), countSucceeded outcomes,
          countFailed outcomes, errList outcomes⟩ := by
  unfold searchModel
  rw [foldl_aggStep]
  simp [mergeAll]

/-- `finishSearch` when no errors were recorded. -/
theorem finishSearch_nil (n : Nat) (m : List (String × Hotel)) (s f : Nat) :
    finishSearch n ⟨m, s, f, []⟩ =
      Except.ok ⟨sortByPrice (m.map Prod.snd), n, s, f⟩ := rfl

/-- `finishSearch` when at least one error was recorded. -/
theorem finishSearch_cons (n : Nat) (m : List (String × Hotel)) (s f : Nat)
    (e : String) (tail : List String) :
    finishSearch n ⟨m, s, f, e :: tail⟩ =
      if f = n then Except.error e
      else Except.ok ⟨sortByPrice (m.map Prod.snd), n, s, f⟩ := rfl

/-- Field-level description of every successful `Search` result. -/
theorem searchModel_ok_spec {outcomes : List ProviderOutcome} {r : AggResult}
    (h : searchModel outcomes = Except.ok r) :
    r.hotels = sortByPrice ((mergeAll (normalizedArrivals outcomes)).map Prod.snd) ∧
      r.providersTotal = outcomes.length ∧
      r.providersSucceeded = countSucceeded outcomes ∧
      r.providersFailed = countFailed outcomes := by
  rw [searchModel_eq] at h
  cases he : errList outcomes with
  | nil =>
    rw [he, finishSearch_nil] at h
    rw [← Except.ok.inj h]
    exact ⟨rfl, rfl, rfl, rfl⟩
  | cons e tail =>
    rw [he, finishSearch_cons] at h
    by_cases hf : countFailed outcomes = outcomes.length
    · rw [if_pos hf] at h
      exact absurd h (by simp)
    · rw [if_neg hf] at h
      rw [← Except.ok.inj h]
      exact ⟨rfl, rfl, rfl, rfl⟩

/-- A failed `Search` run returns the first recorded error, and only when
every unit failed. -/
theorem searchModel_error_spec {outcomes : List ProviderOutcome} {e : String}
    (h : searchModel outcomes = Except.error e) :
    e ∈ errList outcomes ∧ countFailed outcomes = outcomes.length := by
  rw [searchModel_eq] at h
  cases he : errList outcomes with
  | nil =>
    rw [he, finishSearch_nil] at h
    exact absurd h (by simp)
  | cons x tail =>
    rw [he, finishSearch_cons] at h
    by_cases hf : countFailed outcomes = outcomes.length
    · rw [if_pos hf] at h
      have hx : x = e := Except.error.inj h
      exact ⟨hx ▸ List.mem_cons_self x tail, hf⟩
    · rw [if_neg hf] at h
      exact absurd h (by simp)

/-- `Search` fails exactly when there was at least one provider and every
provider failed. -/
theorem resultOk_searchModel_iff (outcomes : List ProviderOutcome) :
    resultOk (searchModel outcomes) = false ↔
      (outcomes ≠ [] ∧ outcomes.all ProviderOutcome.failed = true) := by
  have hall_iff : outcomes.all ProviderOutcome.failed = true ↔
      countFailed outcomes = outcomes.length := by
    rw [List.all_eq_true]
    exact ⟨fun h => List.countP_eq_length.mpr h, fun h => List.countP_eq_length.mp h⟩
  rw [searchModel_eq]
  cases he : errList outcomes with
  | nil =>
    have h0 : countFailed outcomes = 0 := errList_eq_nil_iff.mp he
    rw [finishSearch_nil]
    simp only [resultOk]
    constructor
    · intro h
      exact absurd h (by simp)
    · rintro ⟨hne, hall⟩
      have hlen : outcomes.length ≠ 0 := by
        cases outcomes
        · exact absurd rfl hne
        · simp
      have := hall_iff.mp hall
      omega
  | cons x tail =>
    have hcf : countFailed outcomes ≠ 0 := fun h0 => by
      rw [errList_eq_nil_iff.mpr h0] at he
      exact List.noConfusion he
    by_cases hf : countFailed outcomes = outcomes.length
    · rw [finishSearch_cons, if_pos hf]
      simp only [resultOk]
      constructor
      · intro _
        refine ⟨?_, hall_iff.mpr hf⟩
        intro hnil
        apply hcf
        rw [hnil]
        rfl
      · intro _
        trivial
    · rw [finishSearch_cons, if_neg hf]
      simp only [resultOk]
      constructor
      · intro h
        exact absurd h (by simp)
      · rintro ⟨hne, hall⟩
        exact absurd (hall_iff.mp hall) hf

/-- A price that is not `<= 0` and not NaN is `> 0` (Go comparisons). -/
theorem GoFloat.blt_zero_of_not_ble {p : GoFloat} (hnn : p ≠ GoFloat.nan)
    (h : GoFloat.ble p (GoFloat.val 0) = false) :
    GoFloat.blt (GoFloat.val 0) p = true := by
  cases p <;> simp_all [GoFloat.ble, GoFloat.blt] <;> exact lt_of_not_le h

/-- With distinct keys, lookup inverts membership. -/
theorem findEntry_of_mem {m : List (String × Hotel)} (hnd : (assocKeys m).Nodup)
    {p : String × Hotel} (hp : p ∈ m) : findEntry m p.1 = some p.2 := by
  induction m with
  | nil => simp at hp
  | cons q rest ih =>
    obtain ⟨k, v⟩ := q
    have hnd1 : (k :: assocKeys rest).Nodup := hnd
    have hnd2 := List.nodup_cons.mp hnd1
    rcases List.mem_cons.mp hp with h1 | h1
    · rw [h1]
      simp [findEntry]
    · have hk : ¬ k = p.1 := by
        intro hkp
        have hmem : p.1 ∈ assocKeys rest := List.mem_map.mpr ⟨p, h1, rfl⟩
        exact hnd2.1 (hkp.symm ▸ hmem)
      rw [show findEntry ((k, v) :: rest) p.1 =
        if k = p.1 then some v else findEntry rest p.1 from rfl, if_neg hk]
      exact ih hnd2.2 h1

/-- Every hotel of a successful result was produced by `normalizeHotel`
from some raw hotel of some successful unit. -/
theorem mem_result_hotels {outcomes : List ProviderOutcome} {r : AggResult} {hh : Hotel}
    (hr : searchModel outcomes = Except.ok r) (hmem : hh ∈ r.hotels) :
    ∃ l, (Except.ok l : ProviderOutcome) ∈ outcomes ∧
      ∃ raw ∈ l, normalizeHotel raw = some hh := by
  obtain ⟨hhot, -, -, -⟩ := searchModel_ok_spec hr
  rw [hhot] at hmem
  have h1 : hh ∈ (mergeAll (normalizedArrivals outcomes)).map Prod.snd :=
    (sortByPrice_perm _).mem_iff.mp hmem
  rcases List.mem_map.mp h1 with ⟨p, hp, rfl⟩
  exact mem_normalizedArrivals (mem_mergeAll hp).1

/-- Whether a successful outcome's hotels are sorted by non-decreasing
price; errors count as trivially sorted. -/
def resultSorted : Except String AggResult → Bool
  | .ok r => sortedByPrice r.hotels
  | .error _ => true

/-! ## Claim theorems: aggregator -/

/-- C1, counterexample.  The claim says `normalizeHotel` rejects a hotel
whenever its price is `<= 0` *including NaN*.  It does not: in Go,
`NaN <= 0` is false, so the `h.Price <= 0` guard does not fire and a
NaN-priced hotel flows through normalization into a successful aggregate
result — whose price is then neither `<= 0` nor `> 0` under Go comparison. -/
theorem c1_counterexample_nan_kept :
    normalizeHotel ⟨"H1", "NaN Hotel", "paris", "EUR", GoFloat.nan, 1⟩ =
      some ⟨"H1", "NaN Hotel", "EUR", GoFloat.nan⟩ ∧
    searchModel [Except.ok [⟨"H1", "NaN Hotel", "paris", "EUR", GoFloat.nan, 1⟩]] =
      Except.ok ⟨[⟨"H1", "NaN Hotel", "EUR", GoFloat.nan⟩], 1, 1, 0⟩ ∧
    GoFloat.ble GoFloat.nan (GoFloat.val 0) = false ∧
    GoFloat.blt (GoFloat.val 0) GoFloat.nan = false := by
  refine ⟨by decide, by decide, by decide, by decide⟩

/-- C1 (amended): `normalizeHotel` rejects every hotel whose price compares
`<= 0` under Go float comparison (all zero, negative and -inf prices; a NaN
price compares false and is therefore *kept*), and every hotel of a
successful aggregate result has a non-empty `hotel_id`, a non-empty `name`,
a non-empty currency containing no lowercase letter, and a price for which
`price <= 0` is false — hence `price > 0` whenever the price is not NaN. -/
theorem c1_result_hotels_valid (raw : RawHotel)
    (outcomes : List ProviderOutcome) (r : AggResult) (hh : Hotel)
    (hble : GoFloat.ble raw.price (GoFloat.val 0) = true)
    (hr : searchModel outcomes = Except.ok r) (hmem : hh ∈ r.hotels) :
    normalizeHotel raw = none ∧
      hh.hotelID ≠ "" ∧ hh.name ≠ "" ∧ hh.currency ≠ "" ∧
      (hh.currency.data.all fun c => !c.isLower) = true ∧
      GoFloat.ble hh.price (GoFloat.val 0) = false ∧
      (hh.price ≠ GoFloat.nan → GoFloat.blt (GoFloat.val 0) hh.price = true) := by
  obtain ⟨l, -, raw2, -, hn⟩ := mem_result_hotels hr hmem
  obtain ⟨h1, h2, h3, h4, h5, -⟩ := normalizeHotel_props hn
  exact ⟨normalizeHotel_rejects_nonpositive hble, h1, h2, h3, h4, h5,
    fun hnn => GoFloat.blt_zero_of_not_ble hnn h5⟩

/-- C1 witness: a zero-priced raw hotel is rejected, and the surviving
hotel of a concrete run satisfies all the normalization invariants. -/
theorem c1_result_hotels_valid_witness :
    normalizeHotel ⟨"HX", "X", "p", "EUR", GoFloat.val 0, 1⟩ = none ∧
      ("H2" : String) ≠ "" ∧ ("B" : String) ≠ "" ∧ ("EUR" : String) ≠ "" ∧
      (("EUR" : String).data.all fun c => !c.isLower) = true ∧
      GoFloat.ble (GoFloat.val 5) (GoFloat.val 0) = false ∧
      (GoFloat.val 5 ≠ GoFloat.nan → GoFloat.blt (GoFloat.val 0) (GoFloat.val 5) = true) := by
  have h := c1_result_hotels_valid ⟨"HX", "X", "p", "EUR", GoFloat.val 0, 1⟩
    [Except.ok [⟨"H2", "B", "p", "eur", GoFloat.val 5, 1⟩]]
    ⟨[⟨"H2", "B", "EUR", GoFloat.val 5⟩], 1, 1, 0⟩
    ⟨"H2", "B", "EUR", GoFloat.val 5⟩
    (by decide) (by decide) (by decide)
  exact h

/-- C2, counterexample.  With the empty provider set, "every provider's
unit returned an error" holds vacuously, yet `Search` returns a successful
result (the `failed == len(providers)` branch is guarded by
`len(errors) > 0`), so the claimed "if and only if" fails. -/
theorem c2_counterexample_empty_providers :
    searchModel [] = Except.ok ⟨[], 0, 0, 0⟩ ∧
      ([] : List ProviderOutcome).all ProviderOutcome.failed = true := by
  exact ⟨rfl, rfl⟩

/-- C2 (amended): `Search` returns an error iff there was *at least one*
provider and every provider's unit returned an error; the returned error is
one of the recorded failures; and every successful result reports the
number of failed units. -/
theorem c2_error_iff_all_failed (outcomes : List ProviderOutcome) :
    (resultOk (searchModel outcomes) = false ↔
      outcomes ≠ [] ∧ outcomes.all ProviderOutcome.failed = true) ∧
    (∀ e, searchModel outcomes = Except.error e →
      (Except.error e : ProviderOutcome) ∈ outcomes) ∧
    (∀ r, searchModel outcomes = Except.ok r →
      r.providersFailed = countFailed outcomes) := by
  refine ⟨resultOk_searchModel_iff outcomes, ?_, ?_⟩
  · intro e he
    exact mem_errList (searchModel_error_spec he).1
  · intro r hr
    exact (searchModel_ok_spec hr).2.2.2

/-- C2 witness: all three conjuncts exercised on concrete runs. -/
theorem c2_error_iff_all_failed_witness :
    resultOk (searchModel [Except.error "down"]) = false ∧
    (Except.error "down" : ProviderOutcome) ∈ ([Except.error "down"] : List ProviderOutcome) ∧
    (⟨[], 2, 1, 1⟩ : AggResult).providersFailed =
      countFailed [Except.ok [], Except.error "d2"] := by
  refine ⟨(c2_error_iff_all_failed [Except.error "down"]).1.mpr ⟨by simp, by decide⟩,
    (c2_error_iff_all_failed [Except.error "down"]).2.1 "down" (by decide),
    (c2_error_iff_all_failed [Except.ok [], Except.error "d2"]).2.2 ⟨[], 2, 1, 1⟩ (by decide)⟩

/-- C5: for every run, the returned counts satisfy
`providers_succeeded + providers_failed == providers_total`, and
`providers_total` is the number of configured providers (one settled unit
per provider). -/
theorem c5_counts_partition (outcomes : List ProviderOutcome) (r : AggResult)
    (hr : searchModel outcomes = Except.ok r) :
    r.providersSucceeded + r.providersFailed = r.providersTotal ∧
      r.providersTotal = outcomes.length := by
  obtain ⟨-, htot, hs, hf⟩ := searchModel_ok_spec hr
  rw [htot, hs, hf]
  exact ⟨countSucceeded_add_countFailed outcomes, rfl⟩

/-- C5 witness: one success plus one failure gives `1 + 1 = 2`. -/
theorem c5_counts_partition_witness :
    (⟨[], 2, 1, 1⟩ : AggResult).providersSucceeded +
        (⟨[], 2, 1, 1⟩ : AggResult).providersFailed =
      (⟨[], 2, 1, 1⟩ : AggResult).providersTotal ∧
    (⟨[], 2, 1, 1⟩ : AggResult).providersTotal =
      ([Except.ok [], Except.error "down"] : List ProviderOutcome).length := by
  exact c5_counts_partition [Except.ok [], Except.error "down"] ⟨[], 2, 1, 1⟩ (by decide)

/-- C3, counterexample.  With a NaN price the merge is not a function of
the *multiset* of arrivals: both orders of the same two H1 entries give
different surviving entries, and in the first order the kept price (NaN)
is not `<=` the reported price 5, so it is not the minimum. -/
theorem c3_counterexample_nan_collision :
    mergeAll [⟨"H1", "A", "EUR", GoFloat.nan⟩, ⟨"H1", "B", "EUR", GoFloat.val 5⟩] =
      [("H1", ⟨"H1", "A", "EUR", GoFloat.nan⟩)] ∧
    mergeAll [⟨"H1", "B", "EUR", GoFloat.val 5⟩, ⟨"H1", "A", "EUR", GoFloat.nan⟩] =
      [("H1", ⟨"H1", "B", "EUR", GoFloat.val 5⟩)] ∧
    GoFloat.ble GoFloat.nan (GoFloat.val 5) = false := by
  refine ⟨by decide, by decide, by decide⟩

/-- C3 (amended): the result never holds two entries with the same
`hotel_id`; per key the merge keeps exactly the first-seen entry among
those the comparator never beat (strictly-lower price wins, equal or
incomparable — NaN — prices keep the incumbent); and when no arriving
price is NaN the kept entry's price is the minimum reported for its id. -/
theorem c3_merge_dedup_min (outcomes : List ProviderOutcome) (r : AggResult)
    (key : String) (hr : searchModel outcomes = Except.ok r) :
    (r.hotels.map Hotel.hotelID).Nodup ∧
    findEntry (mergeAll (normalizedArrivals outcomes)) key =
      firstMin ((normalizedArrivals outcomes).filter fun h => h.hotelID == key) ∧
    ((∀ h ∈ normalizedArrivals outcomes, h.price ≠ GoFloat.nan) →
      ∀ hh ∈ r.hotels, ∀ h ∈ normalizedArrivals outcomes,
        h.hotelID = hh.hotelID → GoFloat.ble hh.price h.price = true) := by
  obtain ⟨hhot, -, -, -⟩ := searchModel_ok_spec hr
  set arrivals := normalizedArrivals outcomes with harr
  refine ⟨?_, ?_, ?_⟩
  · -- distinct ids in the final sequence
    have hkeys : (assocKeys (mergeAll arrivals)).Nodup := nodup_assocKeys_mergeAll arrivals
    have hmapeq : (mergeAll arrivals).map (fun p => p.2.hotelID) =
        (mergeAll arrivals).map Prod.fst := by
      apply List.map_congr_left
      intro p hp
      exact ((mem_mergeAll hp).2).symm
    have hvals : (((mergeAll arrivals).map Prod.snd).map Hotel.hotelID).Nodup := by
      rw [List.map_map]
      have : (Hotel.hotelID ∘ Prod.snd) = fun p : String × Hotel => p.2.hotelID := rfl
      rw [this, hmapeq]
      exact hkeys
    have hperm : List.Perm (r.hotels.map Hotel.hotelID)
        (((mergeAll arrivals).map Prod.snd).map Hotel.hotelID) := by
      rw [hhot]
      exact (sortByPrice_perm _).map _
    exact hperm.nodup_iff.mpr hvals
  · -- per-key refinement of the spec-side first-minimum combiner
    exact findEntry_foldl_updateAssoc arrivals [] key
  · -- minimality when no NaN is involved
    intro hnn hh hmem h hmemarr hid
    have hhmem : hh ∈ (mergeAll arrivals).map Prod.snd := by
      rw [hhot] at hmem
      exact (sortByPrice_perm _).mem_iff.mp hmem
    rcases List.mem_map.mp hhmem with ⟨p, hp, hp2⟩
    have hfind : findEntry (mergeAll arrivals) p.1 = some p.2 :=
      findEntry_of_mem (nodup_assocKeys_mergeAll arrivals) hp
    have hkey : p.1 = hh.hotelID := by rw [← hp2]; exact (mem_mergeAll hp).2
    have hchar : findEntry (mergeAll arrivals) hh.hotelID =
        firstMin (arrivals.filter fun x => x.hotelID == hh.hotelID) :=
      findEntry_foldl_updateAssoc arrivals [] hh.hotelID
    have hfm : firstMin (arrivals.filter fun x => x.hotelID == hh.hotelID) = some hh := by
      rw [← hchar, ← hkey, hfind, hp2]
    have hfilmem : h ∈ arrivals.filter fun x => x.hotelID == hh.hotelID :=
      List.mem_filter.mpr ⟨hmemarr, by simp [hid]⟩
    cases hfl : arrivals.filter fun x => x.hotelID == hh.hotelID with
    | nil =>
      rw [hfl] at hfilmem
      simp at hfilmem
    | cons x t =>
      have hnnf : ∀ y ∈ x :: t, y.price ≠ GoFloat.nan := by
        intro y hy
        have : y ∈ arrivals.filter fun x => x.hotelID == hh.hotelID := hfl ▸ hy
        exact hnn y (List.mem_filter.mp this).1
      have hxnn : x.price ≠ GoFloat.nan := hnnf x (List.mem_cons_self x t)
      have htnn : ∀ y ∈ t, y.price ≠ GoFloat.nan :=
        fun y hy => hnnf y (List.mem_cons_of_mem _ hy)
      obtain ⟨v, hv, -, hvle, hvall⟩ := foldl_keepLower_min t x htnn hxnn
      have hfm2 : firstMin (x :: t) = some v := by
        show (x :: t).foldl keepLower none = some v
        rw [List.foldl_cons]
        exact hv
      have hveq : v = hh := by
        rw [hfl, hfm2] at hfm
        exact Option.some.inj hfm
      rw [hfl] at hfilmem
      rcases List.mem_cons.mp hfilmem with h1 | h1
      · exact hveq ▸ h1 ▸ hvle
      · exact hveq ▸ hvall h h1

/-- C3 witness: a concrete two-provider run with an H1 collision keeps the
cheaper H1 and produces distinct ids with per-id minimal prices. -/
theorem c3_merge_dedup_min_witness :
    (([⟨"H1", "A", "EUR", GoFloat.val 120⟩, ⟨"H3", "C", "EUR", GoFloat.val 180⟩] :
        List Hotel).map Hotel.hotelID).Nodup ∧
    findEntry (mergeAll (normalizedArrivals
        [Except.ok [⟨"H1", "A", "p", "EUR", GoFloat.val 150, 1⟩],
          Except.ok [⟨"H1", "A", "p", "EUR", GoFloat.val 120, 1⟩,
            ⟨"H3", "C", "p", "EUR", GoFloat.val 180, 1⟩]])) "H1" =
      firstMin ((normalizedArrivals
        [Except.ok [⟨"H1", "A", "p", "EUR", GoFloat.val 150, 1⟩],
          Except.ok [⟨"H1", "A", "p", "EUR", GoFloat.val 120, 1⟩,
            ⟨"H3", "C", "p", "EUR", GoFloat.val 180, 1⟩]]).filter
        fun h => h.hotelID == "H1") ∧
    GoFloat.ble (GoFloat.val 120) (GoFloat.val 150) = true := by
  have h := c3_merge_dedup_min
    [Except.ok [⟨"H1", "A", "p", "EUR", GoFloat.val 150, 1⟩],
      Except.ok [⟨"H1", "A", "p", "EUR", GoFloat.val 120, 1⟩,
        ⟨"H3", "C", "p", "EUR", GoFloat.val 180, 1⟩]]
    ⟨[⟨"H1", "A", "EUR", GoFloat.val 120⟩, ⟨"H3", "C", "EUR", GoFloat.val 180⟩], 2, 2, 0⟩
    "H1" (by decide)
  refine ⟨h.1, h.2.1, ?_⟩
  exact h.2.2 (by decide) ⟨"H1", "A", "EUR", GoFloat.val 120⟩ (by decide)
    ⟨"H1", "A", "EUR", GoFloat.val 150⟩ (by decide) rfl

/-- C4, counterexample.  A NaN price survives normalization (it is not
`<= 0` in Go), and a result containing a NaN-priced hotel next to any other
hotel cannot be non-decreasing under Go `<=`, whatever order the sort
emits: the run below succeeds with two hotels and fails the adjacent-pair
check. -/
theorem c4_counterexample_nan_unsorted :
    resultOk (searchModel [Except.ok [⟨"H1", "A", "p", "EUR", GoFloat.nan, 1⟩,
      ⟨"H2", "B", "p", "EUR", GoFloat.val 5, 1⟩]]) = true ∧
    resultSorted (searchModel [Except.ok [⟨"H1", "A", "p", "EUR", GoFloat.nan, 1⟩,
      ⟨"H2", "B", "p", "EUR", GoFloat.val 5, 1⟩]]) = false ∧
    GoFloat.ble (GoFloat.val 5) GoFloat.nan = false ∧
    GoFloat.ble GoFloat.nan (GoFloat.val 5) = false := by
  refine ⟨by decide, by decide, by decide, by decide⟩

/-- Whether no successful unit reported a NaN price. -/
def outcomesNoNaN (outcomes : List ProviderOutcome) : Bool :=
  outcomes.all fun o =>
    match o with
    | .error _ => true
    | .ok l => l.all fun raw => raw.price != GoFloat.nan

/-- C4 (amended): whenever no provider reports a NaN price — the one
precondition the pipeline's own `price <= 0` guard fails to enforce —
every successful result's hotel sequence is sorted by non-decreasing
price in every adjacent pair. -/
theorem c4_sorted_by_price (outcomes : List ProviderOutcome) (r : AggResult)
    (hr : searchModel outcomes = Except.ok r)
    (hnn : outcomesNoNaN outcomes = true) :
    sortedByPrice r.hotels = true := by
  obtain ⟨hhot, -, -, -⟩ := searchModel_ok_spec hr
  rw [hhot]
  apply sortedByPrice_of_pairwise
  apply pairwise_sortByPrice
  intro x hx
  rcases List.mem_map.mp hx with ⟨p, hp, hp2⟩
  rcases mem_normalizedArrivals (mem_mergeAll hp).1 with ⟨l, hl, raw, hrawmem, hn⟩
  have hpr := (normalizeHotel_props hn).2.2.2.2.2
  rw [← hp2, hpr]
  have h1 := List.all_eq_true.mp hnn _ hl
  have h2 : (l.all fun raw => raw.price != GoFloat.nan) = true := h1
  have h3 := List.all_eq_true.mp h2 raw hrawmem
  exact bne_iff_ne.mp h3

/-- C4 witness: a concrete NaN-free two-hotel run comes out sorted. -/
theorem c4_sorted_by_price_witness :
    sortedByPrice ([⟨"H2", "B", "EUR", GoFloat.val 50⟩,
      ⟨"H1", "A", "EUR", GoFloat.val 100⟩] : List Hotel) = true := by
  have h := c4_sorted_by_price
    [Except.ok [⟨"H1", "A", "p", "EUR", GoFloat.val 100, 1⟩,
      ⟨"H2", "B", "p", "EUR", GoFloat.val 50, 1⟩]]
    ⟨[⟨"H2", "B", "EUR", GoFloat.val 50⟩, ⟨"H1", "A", "EUR", GoFloat.val 100⟩], 1, 1, 0⟩
    (by decide) (by decide)
  exact h

/-! ## Cache (`Cache.GetOrFetch`, `internal/search/cache/cache.go`)

The storage behaviour is modelled sequentially (no concurrent caller):
`now1` is the instant of the entry check (`time.Now().Before(expiresAt)`),
`now2` the instant of the store (`time.Now().Add(ttl)`), and the fetch
thunk's outcome is passed as data.  The interleaved single-flight model
follows further below. -/

/-- `cacheEntry`: the stored (non-nil) result and its expiry instant. -/
structure CacheEntry where
  result : AggResult
  expiresAt : Int
deriving DecidableEq, Repr

/-- The `entries map[string]*cacheEntry` table, as an association list. -/
structure CacheState where
  entries : List (String × CacheEntry)
deriving DecidableEq, Repr

/-- Map lookup `c.entries[key]`. -/
def findCacheEntry : List (String × CacheEntry) → String → Option CacheEntry
  | [], _ => none
  | (k, v) :: rest, key => if k = key then some v else findCacheEntry rest key

/-- Map store `c.entries[key] = e`. -/
def setCacheEntry : List (String × CacheEntry) → String → CacheEntry →
    List (String × CacheEntry)
  | [], key, e => [(key, e)]
  | (k, v) :: rest, key, e =>
    if k = key then (k, e) :: rest else (k, v) :: setCacheEntry rest key e

/-- The cache-hit test `entry, ok := c.entries[key]; ok && now.Before(entry.expiresAt)`. -/
def cacheHas (st : CacheState) (key : String) (now : Int) : Bool :=
  match findCacheEntry st.entries key with
  | some e => decide (now < e.expiresAt)
  | none => false

/-- The miss path of `GetOrFetch`: run the fetch and store the entry iff
`err == nil && result != nil`, with `expiresAt = now2 + ttl`. -/
def getOrFetchMiss (st : CacheState) (key : String) (ttl : Int)
    (fetchOut : Option AggResult × Option String) (now2 : Int) :
    CacheState × (Option AggResult × Bool × Option String) :=
  match fetchOut with
  | (result, err) =>
    let st2 : CacheState :=
      match err, result with
      | none, some r => ⟨setCacheEntry st.entries key ⟨r, now2 + ttl⟩⟩
      | _, _ => st
    (st2, (result, false, err))

/-- `Cache.GetOrFetch` with no concurrent callers: return the cached entry
while fresh, otherwise run the fetch and store on success. -/
def getOrFetch (st : CacheState) (key : String) (ttl : Int) (now1 : Int)
    (fetchOut : Option AggResult × Option String) (now2 : Int) :
    CacheState × (Option AggResult × Bool × Option String) :=
  match findCacheEntry st.entries key with
  | some e =>
    if now1 < e.expiresAt then (st, (some e.result, true, none))
    else getOrFetchMiss st key ttl fetchOut now2
  | none => getOrFetchMiss st key ttl fetchOut now2

/-- On a miss, `getOrFetch` takes the miss path. -/
theorem getOrFetch_of_miss {st : CacheState} {key : String} {ttl now1 now2 : Int}
    {fetchOut : Option AggResult × Option String}
    (hmiss : cacheHas st key now1 = false) :
    getOrFetch st key ttl now1 fetchOut now2 = getOrFetchMiss st key ttl fetchOut now2 := by
  unfold getOrFetch
  unfold cacheHas at hmiss
  cases hfind : findCacheEntry st.entries key with
  | none => rfl
  | some e =>
    rw [hfind] at hmiss
    have hmiss2 : ¬ now1 < e.expiresAt := not_lt.mpr (by simpa using hmiss)
    show (if now1 < e.expiresAt then (st, (some e.result, true, none))
      else getOrFetchMiss st key ttl fetchOut now2) = getOrFetchMiss st key ttl fetchOut now2
    rw [if_neg hmiss2]

/-- Lookup after a store finds the stored entry. -/
theorem findCacheEntry_setCacheEntry (m : List (String × CacheEntry))
    (key : String) (e : CacheEntry) :
    findCacheEntry (setCacheEntry m key e) key = some e := by
  induction m with
  | nil => simp [setCacheEntry, findCacheEntry]
  | cons p rest ih =>
    obtain ⟨k, v⟩ := p
    by_cases hk : k = key <;> simp [setCacheEntry, findCacheEntry, hk, ih]

/-- C6: `GetOrFetch` stores a cache entry — with `expires_at = now + ttl` —
iff the fetch ran (a miss) and returned `err == nil` with a non-nil result;
failed or nil-result fetches leave the table untouched, so any later caller
misses again and starts a new fetch; a fresh hit also stores nothing.  No
condition is placed on the result's hotels, so an empty-but-successful
result is cached like any other. -/
theorem c6_store_iff_success (st : CacheState) (key : String)
    (ttl now1 now2 : Int) (res : Option AggResult) (err : Option String) :
    (cacheHas st key now1 = false → err = none → ∀ r, res = some r →
      findCacheEntry (getOrFetch st key ttl now1 (res, err) now2).1.entries key =
        some ⟨r, now2 + ttl⟩ ∧
      (getOrFetch st key ttl now1 (res, err) now2).2 = (some r, false, none)) ∧
    (cacheHas st key now1 = false → (err ≠ none ∨ res = none) →
      (getOrFetch st key ttl now1 (res, err) now2).1 = st ∧
      (getOrFetch st key ttl now1 (res, err) now2).2 = (res, false, err) ∧
      ∀ now3, now1 ≤ now3 →
        cacheHas (getOrFetch st key ttl now1 (res, err) now2).1 key now3 = false) ∧
    (cacheHas st key now1 = true →
      (getOrFetch st key ttl now1 (res, err) now2).1 = st) := by
  refine ⟨?_, ?_, ?_⟩
  · intro hmiss herr r hres
    subst herr
    subst hres
    rw [getOrFetch_of_miss hmiss]
    exact ⟨findCacheEntry_setCacheEntry _ _ _, rfl⟩
  · intro hmiss hfail
    rw [getOrFetch_of_miss hmiss]
    have hst2 : getOrFetchMiss st key ttl (res, err) now2 = (st, (res, false, err)) := by
      unfold getOrFetchMiss
      rcases hfail with h1 | h1
      · cases err with
        | none => exact absurd rfl h1
        | some e => rfl
      · subst h1
        cases err <;> rfl
    rw [hst2]
    refine ⟨rfl, rfl, ?_⟩
    intro now3 hle
    unfold cacheHas at hmiss ⊢
    cases hfind : findCacheEntry st.entries key with
    | none => rfl
    | some e =>
      rw [hfind] at hmiss
      have h2 : e.expiresAt ≤ now1 := by simpa using hmiss
      simp only [decide_eq_false_iff_not, not_lt]
      omega
  · intro hhit
    unfold getOrFetch
    unfold cacheHas at hhit
    cases hfind : findCacheEntry st.entries key with
    | none =>
      rw [hfind] at hhit
      exact absurd hhit (by simp)
    | some e =>
      rw [hfind] at hhit
      have h2 : now1 < e.expiresAt := by simpa using hhit
      show (if now1 < e.expiresAt then (st, (some e.result, true, none))
        else getOrFetchMiss st key ttl (res, err) now2).1 = st
      rw [if_pos h2]

/-- C6 witness: an empty-hotels success is stored with expiry `1 + 30`; an
errored fetch on a cold key stores nothing and the next check still
misses; a fresh hit leaves the table unchanged. -/
theorem c6_store_iff_success_witness :
    (findCacheEntry (getOrFetch ⟨[]⟩ "k" 30 0
        (some ⟨[], 3, 3, 0⟩, none) 1).1.entries "k" = some ⟨⟨[], 3, 3, 0⟩, 1 + 30⟩ ∧
      (getOrFetch ⟨[]⟩ "k" 30 0 (some ⟨[], 3, 3, 0⟩, none) 1).2 =
        (some ⟨[], 3, 3, 0⟩, false, none)) ∧
    ((getOrFetch ⟨[]⟩ "k" 30 0 (none, some "boom") 1).1 = ⟨[]⟩ ∧
      (getOrFetch ⟨[]⟩ "k" 30 0 (none, some "boom") 1).2 = (none, false, some "boom") ∧
      cacheHas (getOrFetch ⟨[]⟩ "k" 30 0 (none, some "boom") 1).1 "k" 2 = false) ∧
    (getOrFetch ⟨[("k", ⟨⟨[], 3, 3, 0⟩, 10⟩)]⟩ "k" 30 0 (none, some "x") 1).1 =
      ⟨[("k", ⟨⟨[], 3, 3, 0⟩, 10⟩)]⟩ := by
  refine ⟨(c6_store_iff_success ⟨[]⟩ "k" 30 0 1 (some ⟨[], 3, 3, 0⟩) none).1
      (by decide) rfl ⟨[], 3, 3, 0⟩ rfl, ?_, ?_⟩
  · have h := (c6_store_iff_success ⟨[]⟩ "k" 30 0 1 none (some "boom")).2.1
      (by decide) (Or.inr rfl)
    exact ⟨h.1, h.2.1, h.2.2 2 (by decide)⟩
  · exact (c6_store_iff_success ⟨[("k", ⟨⟨[], 3, 3, 0⟩, 10⟩)]⟩ "k" 30 0 1
      none (some "x")).2.2 (by decide)

/-! ## Rate limiter (`Limiter.Allow`, `internal/search/ratelimit/ratelimit.go`)

One key's bucket; calls for other keys touch disjoint buckets under the
same mutex and are omitted.  Instants are `Int` (Go's monotonic clock). -/

/-- A token bucket (`tokens int`, `lastReset time.Time`). -/
structure Bucket where
  tokens : Int
  lastReset : Int
deriving DecidableEq, Repr

/-- One `Allow` call: create the bucket on first use with
`tokens = rate, lastReset = now`; refill when a full window has elapsed;
consume one token and admit when `tokens > 0`. -/
def allowStep (rate window : Int) (b : Option Bucket) (now : Int) : Bucket × Bool :=
  let b0 : Bucket :=
    match b with
    | none => ⟨rate, now⟩
    | some bb => bb
  let b1 : Bucket := if now - b0.lastReset ≥ window then ⟨rate, now⟩ else b0
  if b1.tokens > 0 then (⟨b1.tokens - 1, b1.lastReset⟩, true) else (b1, false)

/-- A timed sequence of `Allow` calls on one bucket: final bucket state and
the per-call verdicts, in order. -/
def allowRun (rate window : Int) : Option Bucket → List Int → Option Bucket × List Bool
  | b, [] => (b, [])
  | b, t :: ts =>
    let s := allowStep rate window b t
    let rest := allowRun rate window (some s.1) ts
    (rest.1, s.2 :: rest.2)

/-- Number of admitted calls. -/
def countTrues (l : List Bool) : Nat :=
  l.countP (fun b => b)

/-- Number of admitted calls whose instant lies in `[lo, lo + window)`,
for a run on a fresh bucket. -/
def countAllowedIn (rate window : Int) (times : List Int) (lo : Int) : Nat :=
  ((times.zip (allowRun rate window none times).2).filter
    (fun p => decide (lo ≤ p.1) && decide (p.1 < lo + window) && p.2)).length

example : (allowRun 2 10 none [0, 9, 10, 10]).2 = [true, true, true, true] := by decide

example : (allowRun 0 10 none [0, 1, 2]).2 = [false, false, false] := by decide

example : (allowRun 3 60 none [0, 0, 0, 0, 0]).2 =
    [true, true, true, false, false] := by decide

/-- The bucket invariant the code actually maintains: `0 ≤ tokens ≤ rate`
for non-negative rates, and `tokens = rate` frozen for negative rates. -/
def bucketInv (rate : Int) : Option Bucket → Bool
  | none => true
  | some b =>
    if 0 ≤ rate then decide (0 ≤ b.tokens) && decide (b.tokens ≤ rate)
    else decide (b.tokens = rate)

/-- One step preserves the bucket invariant, and a non-positive rate never
admits. -/
theorem allowStep_inv (rate window now : Int) (b : Option Bucket)
    (hb : bucketInv rate b = true) :
    bucketInv rate (some (allowStep rate window b now).1) = true ∧
    (rate ≤ 0 → (allowStep rate window b now).2 = false) := by
  cases b with
  | none =>
    simp only [allowStep, bucketInv]
    split_ifs with h1 h2 h3 h2 h3 <;> simp_all <;> omega
  | some bb =>
    simp only [bucketInv] at hb
    simp only [allowStep, bucketInv]
    split_ifs at hb ⊢ with h1 h2 h3 h3 h2 h3 h3 <;> simp_all <;> omega

/-- The invariant holds after any run, and a non-positive rate admits
nothing at all. -/
theorem allowRun_inv (rate window : Int) (times : List Int) (b : Option Bucket)
    (hb : bucketInv rate b = true) :
    bucketInv rate (allowRun rate window b times).1 = true ∧
    (rate ≤ 0 → countTrues (allowRun rate window b times).2 = 0) := by
  induction times generalizing b with
  | nil => exact ⟨hb, fun _ => rfl⟩
  | cons t ts ih =>
    obtain ⟨hinv, hdeny⟩ := allowStep_inv rate window t b hb
    obtain ⟨ih1, ih2⟩ := ih (some (allowStep rate window b t).1) hinv
    refine ⟨ih1, ?_⟩
    intro hr
    show countTrues ((allowStep rate window b t).2 ::
      (allowRun rate window (some (allowStep rate window b t).1) ts).2) = 0
    rw [hdeny hr]
    simpa [countTrues] using ih2 hr

/-- While no full window elapses since `lastReset`, the bucket never
refills, so the admitted calls cannot exceed the tokens on hand. -/
theorem allowRun_within_window (rate window t0 : Int) (ts : List Int) (b : Bucket)
    (hb : b.lastReset = t0) (hw : ∀ t ∈ ts, t - t0 < window) :
    (countTrues (allowRun rate window (some b) ts).2 : Int) ≤ max b.tokens 0 := by
  induction ts generalizing b with
  | nil =>
    simp [allowRun, countTrues]
  | cons t ts ih =>
    have hwt : t - t0 < window := hw t (List.mem_cons_self t ts)
    have hnoref : ¬ t - b.lastReset ≥ window := by
      rw [hb]
      omega
    have hwts : ∀ x ∈ ts, x - t0 < window := fun x hx => hw x (List.mem_cons_of_mem _ hx)
    by_cases htok : b.tokens > 0
    · have hstep : allowStep rate window (some b) t = (⟨b.tokens - 1, b.lastReset⟩, true) := by
        simp [allowStep, hnoref, htok]
      have hrun : allowRun rate window (some b) (t :: ts) =
          ((allowRun rate window (some ⟨b.tokens - 1, b.lastReset⟩) ts).1,
            true :: (allowRun rate window (some ⟨b.tokens - 1, b.lastReset⟩) ts).2) := by
        show ((allowRun rate window (some (allowStep rate window (some b) t).1) ts).1,
          (allowStep rate window (some b) t).2 ::
            (allowRun rate window (some (allowStep rate window (some b) t).1) ts).2) = _
        rw [hstep]
      rw [hrun]
      have hih := ih ⟨b.tokens - 1, b.lastReset⟩ hb hwts
      have hmax1 : max (b.tokens - 1) (0 : Int) = b.tokens - 1 := max_eq_left (by omega)
      have hmax2 : max b.tokens (0 : Int) = b.tokens := max_eq_left (by omega)
      rw [hmax1] at hih
      rw [hmax2]
      simp only [countTrues, List.countP_cons, if_pos rfl] at hih ⊢
      push_cast at hih ⊢
      omega
    · have hstep : allowStep rate window (some b) t = (b, false) := by
        simp [allowStep, hnoref, htok]
      have hrun : allowRun rate window (some b) (t :: ts) =
          ((allowRun rate window (some b) ts).1,
            false :: (allowRun rate window (some b) ts).2) := by
        show ((allowRun rate window (some (allowStep rate window (some b) t).1) ts).1,
          (allowStep rate window (some b) t).2 ::
            (allowRun rate window (some (allowStep rate window (some b) t).1) ts).2) = _
        rw [hstep]
      rw [hrun]
      have hih := ih b hb hwts
      simp only [countTrues, List.countP_cons] at hih ⊢
      simpa using hih

/-- C7, counterexample.  The limiter is a *fixed* window with lazy reset:
with `rate = 2, window = 10`, calls at instants 0, 9, 10, 10 are all
admitted (the bucket resets at 10), yet the interval `[1, 11)` — of
duration exactly `window` — contains three admitted calls, exceeding the
claimed bound `rate = 2`. -/
theorem c7_counterexample_boundary_burst :
    (allowRun 2 10 none [0, 9, 10, 10]).2 = [true, true, true, true] ∧
    countAllowedIn 2 10 [0, 9, 10, 10] 1 = 3 ∧ ¬ (3 : Nat) ≤ 2 := by
  refine ⟨by decide, by decide, by decide⟩

/-- C7 (amended): within a single fixed window — all calls strictly less
than `window` after the bucket's creation at `t0`, so no reset intervenes —
the number of admitted calls is at most `rate` (at most 0 for `rate ≤ 0`).
Across a window boundary an interval of duration `window` can see up to
`2 * rate` admitted calls, as the counterexample shows. -/
theorem c7_at_most_rate_per_window (rate window t0 : Int) (ts : List Int)
    (hw : ∀ t ∈ ts, t - t0 < window) :
    (countTrues (allowRun rate window none (t0 :: ts)).2 : Int) ≤ max rate 0 := by
  have hstep : allowStep rate window none t0 =
      if 0 < rate then ((⟨rate - 1, t0⟩ : Bucket), true)
      else ((⟨rate, t0⟩ : Bucket), false) := by
    simp [allowStep]
  have hrun : allowRun rate window none (t0 :: ts) =
      ((allowRun rate window (some (allowStep rate window none t0).1) ts).1,
        (allowStep rate window none t0).2 ::
          (allowRun rate window (some (allowStep rate window none t0).1) ts).2) := rfl
  rw [hrun, hstep]
  by_cases hpos : 0 < rate
  · rw [if_pos hpos]
    have hih := allowRun_within_window rate window t0 ts ⟨rate - 1, t0⟩ rfl hw
    have hmax1 : max (rate - 1) (0 : Int) = rate - 1 := max_eq_left (by omega)
    have hmax2 : max rate (0 : Int) = rate := max_eq_left (by omega)
    rw [hmax1] at hih
    rw [hmax2]
    simp only [countTrues, List.countP_cons, if_pos rfl] at hih ⊢
    push_cast at hih ⊢
    omega
  · rw [if_neg hpos]
    have hih := allowRun_within_window rate window t0 ts ⟨rate, t0⟩ rfl hw
    have hmax : max rate (0 : Int) = 0 := max_eq_right (by omega)
    rw [hmax] at hih ⊢
    simp only [countTrues, List.countP_cons] at hih ⊢
    simpa using hih

/-- C7 witness: three calls inside one window under `rate = 2` admit at
most two. -/
theorem c7_at_most_rate_per_window_witness :
    (countTrues (allowRun 2 10 none (0 :: [1, 2, 3])).2 : Int) ≤ max 2 0 := by
  exact c7_at_most_rate_per_window 2 10 0 [1, 2, 3] (by decide)

/-- C8, counterexample.  A bucket is created with `tokens = rate`, so a
negative rate puts the bucket state at `tokens = -5`, violating the
claimed `0 ≤ tokens` between operations (the deny-all behaviour itself
does hold). -/
theorem c8_counterexample_negative_rate :
    (allowRun (-5) 10 none [0]).1 = some ⟨-5, 0⟩ ∧ ¬ (0 : Int) ≤ -5 := by
  refine ⟨by decide, by decide⟩

/-- C8 (amended): between operations the bucket satisfies
`0 ≤ tokens ≤ rate` whenever `rate ≥ 0`; for `rate < 0` the bucket is
frozen at `tokens = rate` (a negative value, so the claimed lower bound
fails); and for every `rate ≤ 0` every `Allow` call returns false. -/
theorem c8_bucket_invariant (rate window : Int) (times : List Int) :
    bucketInv rate (allowRun rate window none times).1 = true ∧
    (rate ≤ 0 → countTrues (allowRun rate window none times).2 = 0) := by
  exact allowRun_inv rate window times none rfl

/-- C8 witness: the invariant after a concrete run, and a negative rate
admitting nothing. -/
theorem c8_bucket_invariant_witness :
    bucketInv 2 (allowRun 2 10 none [0, 1, 2]).1 = true ∧
    countTrues (allowRun (-5) 10 none [0, 1, 2]).2 = 0 := by
  exact ⟨(c8_bucket_invariant 2 10 [0, 1, 2]).1,
    (c8_bucket_invariant (-5) 10 [0, 1, 2]).2 (by decide)⟩

/-! ## Cache key (`Cache.Key`) and query validation (`ParseSearchParams`) -/

/-- Decimal notation of a natural number, most significant digit first
(the `fmt` verb `%d` on a non-negative value). -/
def natDec (n : Nat) : String :=
  if n = 0 then "0" else ⟨((Nat.digits 10 n).map Nat.digitChar).reverse⟩

/-- `fmt.Sprintf("%d", n)` for a Go `int`. -/
def goIntDec (n : Int) : String :=
  if n < 0 then "-" ++ natDec (-n).toNat else natDec n.toNat

/-- `Cache.Key`: `fmt.Sprintf("%s:%s:%d:%d", city, checkin, nights, adults)`. -/
def cacheKey (city checkin : String) (nights adults : Int) : String :=
  city ++ ":" ++ checkin ++ ":" ++ goIntDec nights ++ ":" ++ goIntDec adults

example : natDec 3 = "3" := by
  have h3 : Nat.digits 10 3 = [3] := by
    rw [Nat.digits_def' (by norm_num : (1 : ℕ) < 10) (by norm_num)]
    norm_num
  rw [natDec, if_neg (by norm_num), h3]
  rfl

/-- The shape shared by every `checkin` that `ParseSearchParams` accepts
through `time.Parse("2006-01-02", checkin)`: ten characters, each a
decimal digit or a dash.  (The layout's fixed dash positions and the
month/day range checks only shrink the accepted set further; the claims
need only this shape, so using it as a hypothesis proves more.) -/
def validCheckin (s : String) : Bool :=
  (s.data.length == 10) && s.data.all (fun c => c.isDigit || c == '-')

example : validCheckin "2025-12-01" = true := by decide

example : validCheckin "2025/12/01" = false := by decide

theorem validCheckin_no_colon {s : String} (h : validCheckin s = true) :
    ':' ∉ s.data := by
  intro hc
  rw [validCheckin, Bool.and_eq_true] at h
  have h2 := List.all_eq_true.mp h.2 ':' hc
  exact absurd h2 (by decide)

/-- Digit characters below base ten are never the separator. -/
theorem digitChar_ne_colon : ∀ d, d < 10 → Nat.digitChar d ≠ ':' := by decide

/-- Digit characters below base ten determine the digit. -/
theorem digitChar_inj_lt : ∀ a, a < 10 → ∀ b, b < 10 →
    Nat.digitChar a = Nat.digitChar b → a = b := by decide

theorem natDec_no_colon (m : Nat) : ':' ∉ (natDec m).data := by
  unfold natDec
  by_cases h : m = 0
  · rw [if_pos h]
    decide
  · rw [if_neg h]
    intro hc
    have hc2 : ':' ∈ ((Nat.digits 10 m).map Nat.digitChar).reverse := hc
    rw [List.mem_reverse] at hc2
    rcases List.mem_map.mp hc2 with ⟨d, hd, hdc⟩
    exact absurd hdc (digitChar_ne_colon d (Nat.digits_lt_base (by norm_num) hd))

theorem map_digitChar_inj {l1 l2 : List Nat} (hb1 : ∀ d ∈ l1, d < 10)
    (hb2 : ∀ d ∈ l2, d < 10) (h : l1.map Nat.digitChar = l2.map Nat.digitChar) :
    l1 = l2 := by
  induction l1 generalizing l2 with
  | nil =>
    cases l2 with
    | nil => rfl
    | cons y u => simp at h
  | cons x t ih =>
    cases l2 with
    | nil => simp at h
    | cons y u =>
      simp only [List.map_cons, List.cons.injEq] at h
      have hx := hb1 x (List.mem_cons_self x t)
      have hy := hb2 y (List.mem_cons_self y u)
      rw [digitChar_inj_lt x hx y hy h.1,
        ih (fun d hd => hb1 d (List.mem_cons_of_mem _ hd))
          (fun d hd => hb2 d (List.mem_cons_of_mem _ hd)) h.2]

theorem natDec_inj {m1 m2 : Nat} (h1 : 0 < m1) (h2 : 0 < m2)
    (h : natDec m1 = natDec m2) : m1 = m2 := by
  unfold natDec at h
  rw [if_neg (by omega), if_neg (by omega)] at h
  have hd : ((Nat.digits 10 m1).map Nat.digitChar).reverse =
      ((Nat.digits 10 m2).map Nat.digitChar).reverse := congrArg String.data h
  have hd2 := List.reverse_injective hd
  have hdig : Nat.digits 10 m1 = Nat.digits 10 m2 :=
    map_digitChar_inj (fun d hd => Nat.digits_lt_base (by norm_num) hd)
      (fun d hd => Nat.digits_lt_base (by norm_num) hd) hd2
  calc m1 = Nat.ofDigits 10 (Nat.digits 10 m1) := (Nat.ofDigits_digits 10 m1).symm
    _ = Nat.ofDigits 10 (Nat.digits 10 m2) := by rw [hdig]
    _ = m2 := Nat.ofDigits_digits 10 m2

theorem goIntDec_pos_eq {n : Int} (h : 0 < n) : goIntDec n = natDec n.toNat := by
  unfold goIntDec
  rw [if_neg (by omega)]

/-- Splitting two concatenations at a separator absent from the prefixes. -/
theorem append_colon_inj : ∀ {a1 : List Char} {a2 b1 b2 : List Char}, ':' ∉ a1 → ':' ∉ a2 →
    a1 ++ ':' :: b1 = a2 ++ ':' :: b2 → a1 = a2 ∧ b1 = b2 := by
  intro a1
  induction a1 with
  | nil =>
    intro a2 b1 b2 h1 h2 heq
    cases a2 with
    | nil => simpa using heq
    | cons y u =>
      simp only [List.nil_append, List.cons_append, List.cons.injEq] at heq
      exfalso
      apply h2
      rw [← heq.1]
      exact List.mem_cons_self ':' u
  | cons x t ih =>
    intro a2 b1 b2 h1 h2 heq
    cases a2 with
    | nil =>
      simp only [List.nil_append, List.cons_append, List.cons.injEq] at heq
      exfalso
      apply h1
      rw [heq.1]
      exact List.mem_cons_self ':' t
    | cons y u =>
      simp only [List.cons_append, List.cons.injEq] at heq
      have ht := ih (fun hc => h1 (List.mem_cons_of_mem _ hc))
        (fun hc => h2 (List.mem_cons_of_mem _ hc)) heq.2
      exact ⟨by rw [heq.1, ht.1], ht.2⟩

theorem data_append (s t : String) : (s ++ t).data = s.data ++ t.data := by
  cases s
  cases t
  rfl

theorem stringDataInj {s t : String} (h : s.data = t.data) : s = t := by
  cases s
  cases t
  exact congrArg String.mk h

theorem cacheKey_data (city checkin : String) (n a : Int) :
    (cacheKey city checkin n a).data =
      city.data ++ ':' :: (checkin.data ++ ':' ::
        ((goIntDec n).data ++ ':' :: (goIntDec a).data)) := by
  unfold cacheKey
  rw [data_append, data_append, data_append, data_append, data_append, data_append]
  have hcolon : (":" : String).data = [':'] := rfl
  rw [hcolon]
  simp [List.append_assoc]

theorem reverse_key_split (c k nd ad : List Char) :
    (c ++ ':' :: (k ++ ':' :: (nd ++ ':' :: ad))).reverse =
      ad.reverse ++ ':' :: (nd.reverse ++ ':' :: (k.reverse ++ ':' :: c.reverse)) := by
  simp [List.reverse_append, List.reverse_cons, List.append_assoc]

/-- C10: on validated queries — `checkin` in the date shape, positive
`nights` and `adults` — `Cache.Key` is injective even when the city itself
contains `':'` characters: the three rightmost separators are unambiguous
because neither the date nor a positive decimal number can contain `':'`.
(Determinism is immediate: the key is a pure function of the query.) -/
theorem c10_cache_key_injective (city1 city2 checkin1 checkin2 : String)
    (n1 n2 a1 a2 : Int)
    (hv1 : validCheckin checkin1 = true) (hv2 : validCheckin checkin2 = true)
    (hn1 : 0 < n1) (hn2 : 0 < n2) (ha1 : 0 < a1) (ha2 : 0 < a2) :
    cacheKey city1 checkin1 n1 a1 = cacheKey city2 checkin2 n2 a2 ↔
      (city1 = city2 ∧ checkin1 = checkin2 ∧ n1 = n2 ∧ a1 = a2) := by
  constructor
  · intro heq
    have hdata := congrArg String.data heq
    rw [cacheKey_data, cacheKey_data] at hdata
    have hrev : (goIntDec a1).data.reverse ++ ':' :: ((goIntDec n1).data.reverse ++
          ':' :: (checkin1.data.reverse ++ ':' :: city1.data.reverse)) =
        (goIntDec a2).data.reverse ++ ':' :: ((goIntDec n2).data.reverse ++
          ':' :: (checkin2.data.reverse ++ ':' :: city2.data.reverse)) := by
      rw [← reverse_key_split, ← reverse_key_split]
      exact congrArg List.reverse hdata
    have hga1 : goIntDec a1 = natDec a1.toNat := goIntDec_pos_eq ha1
    have hga2 : goIntDec a2 = natDec a2.toNat := goIntDec_pos_eq ha2
    have hgn1 : goIntDec n1 = natDec n1.toNat := goIntDec_pos_eq hn1
    have hgn2 : goIntDec n2 = natDec n2.toNat := goIntDec_pos_eq hn2
    have hnca1 : ':' ∉ (goIntDec a1).data.reverse := by
      rw [List.mem_reverse, hga1]
      exact natDec_no_colon _
    have hnca2 : ':' ∉ (goIntDec a2).data.reverse := by
      rw [List.mem_reverse, hga2]
      exact natDec_no_colon _
    have hncn1 : ':' ∉ (goIntDec n1).data.reverse := by
      rw [List.mem_reverse, hgn1]
      exact natDec_no_colon _
    have hncn2 : ':' ∉ (goIntDec n2).data.reverse := by
      rw [List.mem_reverse, hgn2]
      exact natDec_no_colon _
    have hnck1 : ':' ∉ checkin1.data.reverse := by
      rw [List.mem_reverse]
      exact validCheckin_no_colon hv1
    have hnck2 : ':' ∉ checkin2.data.reverse := by
      rw [List.mem_reverse]
      exact validCheckin_no_colon hv2
    obtain ⟨hA, hrest1⟩ := append_colon_inj hnca1 hnca2 hrev
    obtain ⟨hN, hrest2⟩ := append_colon_inj hncn1 hncn2 hrest1
    obtain ⟨hK, hC⟩ := append_colon_inj hnck1 hnck2 hrest2
    have hcity : city1 = city2 := stringDataInj (List.reverse_injective hC)
    have hcheckin : checkin1 = checkin2 := stringDataInj (List.reverse_injective hK)
    have hnights : n1 = n2 := by
      have hstr : goIntDec n1 = goIntDec n2 := stringDataInj (List.reverse_injective hN)
      rw [hgn1, hgn2] at hstr
      have := natDec_inj (by omega) (by omega) hstr
      omega
    have hadults : a1 = a2 := by
      have hstr : goIntDec a1 = goIntDec a2 := stringDataInj (List.reverse_injective hA)
      rw [hga1, hga2] at hstr
      have := natDec_inj (by omega) (by omega) hstr
      omega
    exact ⟨hcity, hcheckin, hnights, hadults⟩
  · rintro ⟨rfl, rfl, rfl, rfl⟩
    rfl

/-- C10 witness: distinct check-in dates give distinct keys even with a
colon inside the city. -/
theorem c10_cache_key_injective_witness :
    cacheKey "a:b" "2025-12-01" 2 3 = cacheKey "x" "2025-12-02" 2 3 ↔
      (("a:b" : String) = "x" ∧ ("2025-12-01" : String) = "2025-12-02" ∧
        (2 : Int) = 2 ∧ (3 : Int) = 3) := by
  exact c10_cache_key_injective "a:b" "x" "2025-12-01" "2025-12-02" 2 2 3 3
    (by decide) (by decide) (by decide) (by decide) (by decide) (by decide)

/-! ## Single-flight (`Cache.GetOrFetch` under concurrency)

Interleaved model of `GetOrFetch` for one fixed key (records and the
inflight map slot of different keys are disjoint).  Each transition is one
mutex-protected section of the Go code; the fetch itself runs between the
`beginFetch` and `completeFetch` transitions, outside the lock.  The store,
the `delete(c.inflight, key)` and the `close(inflight.done)` are merged
into the single `completeFetch` transition: in the source the close happens
just after the unlock, and no waiter can observe the record between those
two instants (it blocks on the channel), so the merged model reaches the
same waiter-visible states.  Waiters hold a reference to their
`inflightRequest` record, so records live in an append-only sequence and
the map slot holds the index of the live one. -/

/-- `inflightRequest`: completion flag (the closed channel) and terminal
`(result, err)`. -/
structure SFRecord where
  done : Bool
  result : Option AggResult
  err : Option String
deriving DecidableEq, Repr

/-- Where one `GetOrFetch` caller stands.  `finished src ret` keeps, for the
agreement claim, which record (if any) the return value was read from. -/
inductive Phase where
  | start : Phase
  | fetching (rid : Nat) : Phase
  | waiting (rid : Nat) : Phase
  | finished (src : Option Nat) (ret : Option AggResult × Bool × Option String) : Phase
deriving DecidableEq, Repr

/-- The shared state for one key: caller phases, the record arena, the
inflight slot, the cache-table entry, and a history count of fetch-thunk
invocations. -/
structure SFState where
  threads : List Phase
  records : List SFRecord
  inflight : Option Nat
  entry : Option AggResult
  fetchCount : Nat
deriving DecidableEq, Repr

/-- `N` callers about to enter `GetOrFetch` on a key with no inflight
record (`entry0 = none` is the cold key of the claim). -/
def SFInit (N : Nat) (entry0 : Option AggResult) : SFState :=
  ⟨List.replicate N Phase.start, [], none, entry0, 0⟩

/-- One mutex-protected section of `GetOrFetch`.  `hit` returns a fresh
entry; `beginWait` joins an existing inflight record; `beginFetch` is the
leader registering a new record (the only transition that invokes the
fetch thunk); `completeFetch` records the outcome, stores on success,
clears the inflight slot and signals; `observe` is a waiter reading the
signalled record; `cancelWait` is a waiter whose context fires first. -/
inductive SFStep : SFState → SFState → Prop where
  | hit (s : SFState) (i : Nat) (r : AggResult)
      (hth : s.threads[i]? = some Phase.start) (hent : s.entry = some r) :
      SFStep s { s with threads := s.threads.set i (Phase.finished none (some r, true, none)) }
  | beginWait (s : SFState) (i rid : Nat)
      (hth : s.threads[i]? = some Phase.start) (hin : s.inflight = some rid) :
      SFStep s { s with threads := s.threads.set i (Phase.waiting rid) }
  | beginFetch (s : SFState) (i : Nat)
      (hth : s.threads[i]? = some Phase.start) (hin : s.inflight = none) :
      SFStep s { s with
        threads := s.threads.set i (Phase.fetching s.records.length),
        records := s.records ++ [⟨false, none, none⟩],
        inflight := some s.records.length,
        fetchCount := s.fetchCount + 1 }
  | completeFetch (s : SFState) (i rid : Nat) (res : Option AggResult) (err : Option String)
      (hth : s.threads[i]? = some (Phase.fetching rid)) :
      SFStep s { s with
        threads := s.threads.set i (Phase.finished (some rid) (res, false, err)),
        records := s.records.set rid ⟨true, res, err⟩,
        inflight := none,
        entry := if err = none ∧ res.isSome then res else s.entry }
  | observe (s : SFState) (i rid : Nat) (r : SFRecord)
      (hth : s.threads[i]? = some (Phase.waiting rid))
      (hrec : s.records[rid]? = some r) (hdone : r.done = true) :
      SFStep s { s with
        threads := s.threads.set i (Phase.finished (some rid) (r.result, false, r.err)) }
  | cancelWait (s : SFState) (i rid : Nat) (e : String)
      (hth : s.threads[i]? = some (Phase.waiting rid)) :
      SFStep s { s with threads := s.threads.set i (Phase.finished none (none, false, some e)) }

/-- Reads from a written list: the written slot or an untouched one. -/
theorem get?_set_cases {α : Type} {l : List α} {i j : Nat} {p q : α}
    (h : (l.set i p)[j]? = some q) :
    (i = j ∧ q = p ∧ i < l.length) ∨ (i ≠ j ∧ l[j]? = some q) := by
  by_cases hij : i = j
  · subst hij
    by_cases hlen : i < l.length
    · rw [List.getElem?_set_self hlen] at h
      exact Or.inl ⟨rfl, (Option.some.inj h).symm, hlen⟩
    · rw [List.set_eq_of_length_le (by omega)] at h
      rw [List.getElem?_eq_none (by omega)] at h
      exact Option.noConfusion h
  · rw [List.getElem?_set_ne hij] at h
    exact Or.inr ⟨hij, h⟩

/-- Reads from an extended list: an old slot or the appended one. -/
theorem get?_append_singleton {α : Type} {l : List α} {a q : α} {i : Nat}
    (h : (l ++ [a])[i]? = some q) :
    l[i]? = some q ∨ (i = l.length ∧ q = a) := by
  by_cases hlen : i < l.length
  · rw [List.getElem?_append_left hlen] at h
    exact Or.inl h
  · by_cases hi : i = l.length
    · subst hi
      rw [List.getElem?_append_right (by omega)] at h
      simp at h
      exact Or.inr ⟨rfl, h.symm⟩
    · rw [List.getElem?_append_right (by omega)] at h
      rw [List.getElem?_eq_none (by simp; omega)] at h
      exact Option.noConfusion h

theorem get?_lt_length {α : Type} {l : List α} {i : Nat} {a : α}
    (h : l[i]? = some a) : i < l.length := by
  by_contra hlt
  rw [List.getElem?_eq_none (by omega)] at h
  exact Option.noConfusion h

theorem get?_append_self {α : Type} (l : List α) (a : α) :
    (l ++ [a])[l.length]? = some a := by
  rw [List.getElem?_append_right (le_refl _)]
  simp

theorem get?_set_exists {α : Type} {l : List α} {i j : Nat} {a b : α}
    (h : l[j]? = some b) : ∃ c, (l.set i a)[j]? = some c := by
  by_cases hij : i = j
  · subst hij
    exact ⟨a, List.getElem?_set_self (get?_lt_length h)⟩
  · rw [List.getElem?_set_ne hij]
    exact ⟨b, h⟩

/-- The inductive invariant of the single-flight machinery: the inflight
slot names exactly the one undone record; exactly the registered leader is
fetching; waiters point at real records; finished participants that went
through a record carry that record's terminal value; one record per
fetch-thunk invocation. -/
structure SFInv (s : SFState) : Prop where
  liveRecord : ∀ rid : Nat, s.inflight = some rid →
    ∃ r, s.records[rid]? = some r ∧ r.done = false
  undoneLive : ∀ (rid : Nat) (r : SFRecord), s.records[rid]? = some r → r.done = false →
    s.inflight = some rid
  fetchReg : ∀ i rid : Nat, s.threads[i]? = some (Phase.fetching rid) →
    s.inflight = some rid
  fetchUnique : ∀ i j ridi ridj : Nat, s.threads[i]? = some (Phase.fetching ridi) →
    s.threads[j]? = some (Phase.fetching ridj) → i = j
  noFetchWhenIdle : s.inflight = none →
    ∀ i rid : Nat, s.threads[i]? ≠ some (Phase.fetching rid)
  waitRecord : ∀ i rid : Nat, s.threads[i]? = some (Phase.waiting rid) →
    ∃ r, s.records[rid]? = some r
  finishedRecord : ∀ (i rid : Nat) (ret : Option AggResult × Bool × Option String),
    s.threads[i]? = some (Phase.finished (some rid) ret) →
    ∃ r, s.records[rid]? = some r ∧ r.done = true ∧ ret = (r.result, false, r.err)
  countEq : s.fetchCount = s.records.length

theorem replicate_start_phase {N i : Nat} {p : Phase}
    (h : (List.replicate N Phase.start)[i]? = some p) : p = Phase.start := by
  rw [List.getElem?_replicate] at h
  by_cases hi : i < N
  · rw [if_pos hi] at h
    exact (Option.some.inj h).symm
  · rw [if_neg hi] at h
    exact Option.noConfusion h

theorem SFInv_init (N : Nat) (e0 : Option AggResult) : SFInv (SFInit N e0) := by
  refine ⟨?_, ?_, ?_, ?_, ?_, ?_, ?_, ?_⟩
  · intro rid h
    exact Option.noConfusion h
  · intro rid r hr
    exact absurd hr (by simp [SFInit])
  · intro i rid h
    exact absurd (replicate_start_phase h) (by simp)
  · intro i j ridi ridj hi hj
    exact absurd (replicate_start_phase hi) (by simp)
  · intro hidle i rid h
    exact absurd (replicate_start_phase h) (by simp)
  · intro i rid h
    exact absurd (replicate_start_phase h) (by simp)
  · intro i rid ret h
    exact absurd (replicate_start_phase h) (by simp)
  · rfl

/-- Every transition preserves the single-flight invariant. -/
theorem SFInv_step {s s' : SFState} (hinv : SFInv s) (hstep : SFStep s s') : SFInv s' := by
  cases hstep with
  | hit i r hth hent =>
    refine ⟨hinv.liveRecord, hinv.undoneLive, ?_, ?_, ?_, ?_, ?_, hinv.countEq⟩
    · intro i0 rid0 h
      rcases get?_set_cases h with ⟨-, hq, -⟩ | ⟨-, hold⟩
      · exact absurd hq (by simp)
      · exact hinv.fetchReg i0 rid0 hold
    · intro i0 j0 ridi ridj hi hj
      rcases get?_set_cases hi with ⟨-, hq, -⟩ | ⟨-, hi2⟩
      · exact absurd hq (by simp)
      · rcases get?_set_cases hj with ⟨-, hq, -⟩ | ⟨-, hj2⟩
        · exact absurd hq (by simp)
        · exact hinv.fetchUnique i0 j0 ridi ridj hi2 hj2
    · intro hidle i0 rid0 h
      rcases get?_set_cases h with ⟨-, hq, -⟩ | ⟨-, hold⟩
      · exact absurd hq (by simp)
      · exact hinv.noFetchWhenIdle hidle i0 rid0 hold
    · intro i0 rid0 h
      rcases get?_set_cases h with ⟨-, hq, -⟩ | ⟨-, hold⟩
      · exact absurd hq (by simp)
      · exact hinv.waitRecord i0 rid0 hold
    · intro i0 rid0 ret h
      rcases get?_set_cases h with ⟨-, hq, -⟩ | ⟨-, hold⟩
      · exact absurd hq (by simp)
      · exact hinv.finishedRecord i0 rid0 ret hold
  | beginWait i rid hth hin =>
    refine ⟨hinv.liveRecord, hinv.undoneLive, ?_, ?_, ?_, ?_, ?_, hinv.countEq⟩
    · intro i0 rid0 h
      rcases get?_set_cases h with ⟨-, hq, -⟩ | ⟨-, hold⟩
      · exact absurd hq (by simp)
      · exact hinv.fetchReg i0 rid0 hold
    · intro i0 j0 ridi ridj hi hj
      rcases get?_set_cases hi with ⟨-, hq, -⟩ | ⟨-, hi2⟩
      · exact absurd hq (by simp)
      · rcases get?_set_cases hj with ⟨-, hq, -⟩ | ⟨-, hj2⟩
        · exact absurd hq (by simp)
        · exact hinv.fetchUnique i0 j0 ridi ridj hi2 hj2
    · intro hidle i0 rid0 h
      rcases get?_set_cases h with ⟨-, hq, -⟩ | ⟨-, hold⟩
      · exact absurd hq (by simp)
      · exact hinv.noFetchWhenIdle hidle i0 rid0 hold
    · intro i0 rid0 h
      rcases get?_set_cases h with ⟨-, hq, -⟩ | ⟨-, hold⟩
      · have hr : rid0 = rid := by simpa using hq
        obtain ⟨r, hrr, -⟩ := hinv.liveRecord rid hin
        exact ⟨r, hr ▸ hrr⟩
      · exact hinv.waitRecord i0 rid0 hold
    · intro i0 rid0 ret h
      rcases get?_set_cases h with ⟨-, hq, -⟩ | ⟨-, hold⟩
      · exact absurd hq (by simp)
      · exact hinv.finishedRecord i0 rid0 ret hold
  | beginFetch i hth hin =>
    refine ⟨?_, ?_, ?_, ?_, ?_, ?_, ?_, ?_⟩
    · intro rid0 h
      have hr : rid0 = s.records.length := (Option.some.inj h).symm
      subst hr
      exact ⟨⟨false, none, none⟩, get?_append_self _ _, rfl⟩
    · intro rid0 r hr hund
      rcases get?_append_singleton hr with hold | ⟨hrid, -⟩
      · exact absurd (hinv.undoneLive rid0 r hold hund) (by rw [hin]; simp)
      · rw [hrid]
    · intro i0 rid0 h
      rcases get?_set_cases h with ⟨-, hq, -⟩ | ⟨-, hold⟩
      · have hr : rid0 = s.records.length := by simpa using hq
        rw [hr]
      · exact absurd (hinv.fetchReg i0 rid0 hold) (by rw [hin]; simp)
    · intro i0 j0 ridi ridj hi hj
      rcases get?_set_cases hi with ⟨heqi, -, -⟩ | ⟨-, hi2⟩
      · rcases get?_set_cases hj with ⟨heqj, -, -⟩ | ⟨-, hj2⟩
        · rw [← heqi, ← heqj]
        · exact absurd (hinv.fetchReg j0 ridj hj2) (by rw [hin]; simp)
      · exact absurd (hinv.fetchReg i0 ridi hi2) (by rw [hin]; simp)
    · intro hidle i0 rid0 h
      exact Option.noConfusion hidle
    · intro i0 rid0 h
      rcases get?_set_cases h with ⟨-, hq, -⟩ | ⟨-, hold⟩
      · exact absurd hq (by simp)
      · obtain ⟨r, hr⟩ := hinv.waitRecord i0 rid0 hold
        exact ⟨r, by rw [List.getElem?_append_left (get?_lt_length hr)]; exact hr⟩
    · intro i0 rid0 ret h
      rcases get?_set_cases h with ⟨-, hq, -⟩ | ⟨-, hold⟩
      · exact absurd hq (by simp)
      · obtain ⟨r, hr, hdone, hret⟩ := hinv.finishedRecord i0 rid0 ret hold
        exact ⟨r, by rw [List.getElem?_append_left (get?_lt_length hr)]; exact hr, hdone, hret⟩
    · simp [hinv.countEq]
  | completeFetch i rid res err hth =>
    have hlive : s.inflight = some rid := hinv.fetchReg i rid hth
    obtain ⟨r0, hr0, hr0u⟩ := hinv.liveRecord rid hlive
    have hridlen : rid < s.records.length := get?_lt_length hr0
    refine ⟨?_, ?_, ?_, ?_, ?_, ?_, ?_, ?_⟩
    · intro rid0 h
      exact Option.noConfusion h
    · intro rid0 r hr hund
      rcases get?_set_cases hr with ⟨-, hq, -⟩ | ⟨hne, hold⟩
      · rw [hq] at hund
        exact absurd hund (by simp)
      · have h2 := hinv.undoneLive rid0 r hold hund
        rw [hlive] at h2
        exact absurd (Option.some.inj h2) hne
    · intro i0 rid0 h
      rcases get?_set_cases h with ⟨-, hq, -⟩ | ⟨hne, hold⟩
      · exact absurd hq (by simp)
      · exact absurd (hinv.fetchUnique i0 i rid0 rid hold hth).symm hne
    · intro i0 j0 ridi ridj hi hj
      rcases get?_set_cases hi with ⟨-, hq, -⟩ | ⟨hne, hold⟩
      · exact absurd hq (by simp)
      · exact absurd (hinv.fetchUnique i0 i ridi rid hold hth).symm hne
    · intro hidle i0 rid0 h
      rcases get?_set_cases h with ⟨-, hq, -⟩ | ⟨hne, hold⟩
      · exact absurd hq (by simp)
      · exact absurd (hinv.fetchUnique i0 i rid0 rid hold hth).symm hne
    · intro i0 rid0 h
      rcases get?_set_cases h with ⟨-, hq, -⟩ | ⟨-, hold⟩
      · exact absurd hq (by simp)
      · obtain ⟨r1, hr1⟩ := hinv.waitRecord i0 rid0 hold
        exact get?_set_exists hr1
    · intro i0 rid0 ret h
      rcases get?_set_cases h with ⟨-, hq, -⟩ | ⟨-, hold⟩
      · have h1 : rid0 = rid ∧ ret = (res, false, err) := by simpa using hq
        obtain ⟨hrr, hret⟩ := h1
        subst hrr
        refine ⟨⟨true, res, err⟩, List.getElem?_set_self hridlen, rfl, by simp [hret]⟩
      · obtain ⟨r1, hr1, hdone1, hret1⟩ := hinv.finishedRecord i0 rid0 ret hold
        have hne2 : rid ≠ rid0 := by
          intro hcc
          subst hcc
          rw [hr0] at hr1
          rw [← Option.some.inj hr1] at hdone1
          rw [hr0u] at hdone1
          exact Bool.noConfusion hdone1
        refine ⟨r1, ?_, hdone1, hret1⟩
        rw [List.getElem?_set_ne hne2]
        exact hr1
    · simp [hinv.countEq]
  | observe i rid r hth hrec hdone =>
    refine ⟨hinv.liveRecord, hinv.undoneLive, ?_, ?_, ?_, ?_, ?_, hinv.countEq⟩
    · intro i0 rid0 h
      rcases get?_set_cases h with ⟨-, hq, -⟩ | ⟨-, hold⟩
      · exact absurd hq (by simp)
      · exact hinv.fetchReg i0 rid0 hold
    · intro i0 j0 ridi ridj hi hj
      rcases get?_set_cases hi with ⟨-, hq, -⟩ | ⟨-, hi2⟩
      · exact absurd hq (by simp)
      · rcases get?_set_cases hj with ⟨-, hq, -⟩ | ⟨-, hj2⟩
        · exact absurd hq (by simp)
        · exact hinv.fetchUnique i0 j0 ridi ridj hi2 hj2
    · intro hidle i0 rid0 h
      rcases get?_set_cases h with ⟨-, hq, -⟩ | ⟨-, hold⟩
      · exact absurd hq (by simp)
      · exact hinv.noFetchWhenIdle hidle i0 rid0 hold
    · intro i0 rid0 h
      rcases get?_set_cases h with ⟨-, hq, -⟩ | ⟨-, hold⟩
      · exact absurd hq (by simp)
      · exact hinv.waitRecord i0 rid0 hold
    · intro i0 rid0 ret h
      rcases get?_set_cases h with ⟨-, hq, -⟩ | ⟨-, hold⟩
      · have h1 : rid0 = rid ∧ ret = (r.result, false, r.err) := by simpa using hq
        obtain ⟨hrr, hret⟩ := h1
        subst hrr
        exact ⟨r, hrec, hdone, hret⟩
      · exact hinv.finishedRecord i0 rid0 ret hold
  | cancelWait i rid e hth =>
    refine ⟨hinv.liveRecord, hinv.undoneLive, ?_, ?_, ?_, ?_, ?_, hinv.countEq⟩
    · intro i0 rid0 h
      rcases get?_set_cases h with ⟨-, hq, -⟩ | ⟨-, hold⟩
      · exact absurd hq (by simp)
      · exact hinv.fetchReg i0 rid0 hold
    · intro i0 j0 ridi ridj hi hj
      rcases get?_set_cases hi with ⟨-, hq, -⟩ | ⟨-, hi2⟩
      · exact absurd hq (by simp)
      · rcases get?_set_cases hj with ⟨-, hq, -⟩ | ⟨-, hj2⟩
        · exact absurd hq (by simp)
        · exact hinv.fetchUnique i0 j0 ridi ridj hi2 hj2
    · intro hidle i0 rid0 h
      rcases get?_set_cases h with ⟨-, hq, -⟩ | ⟨-, hold⟩
      · exact absurd hq (by simp)
      · exact hinv.noFetchWhenIdle hidle i0 rid0 hold
    · intro i0 rid0 h
      rcases get?_set_cases h with ⟨-, hq, -⟩ | ⟨-, hold⟩
      · exact absurd hq (by simp)
      · exact hinv.waitRecord i0 rid0 hold
    · intro i0 rid0 ret h
      rcases get?_set_cases h with ⟨-, hq, -⟩ | ⟨-, hold⟩
      · exact absurd hq (by simp)
      · exact hinv.finishedRecord i0 rid0 ret hold

/-- The invariant holds in every reachable state. -/
theorem SFInv_reachable {N : Nat} {e0 : Option AggResult} {s : SFState}
    (h : Relation.ReflTransGen SFStep (SFInit N e0) s) : SFInv s := by
  induction h with
  | refl => exact SFInv_init N e0
  | tail hab hbc ih => exact SFInv_step ih hbc

/-- C9: in every state reachable by interleaved `GetOrFetch` callers on one
key, (a) at most one caller is executing the fetch thunk; (b) every
fetch-thunk invocation has its own inflight record, and while no record has
completed the thunk has run at most once — the single-flight property for a
cold key; (c) the leader and every waiter that observed its completion
signal return the very same `(result, hit=false, err)` triple (a waiter
whose context is cancelled returns its cancellation error instead, without
touching the computation). -/
theorem c9_single_flight (N : Nat) (entry0 : Option AggResult) (s : SFState)
    (hreach : Relation.ReflTransGen SFStep (SFInit N entry0) s) :
    (∀ i j ridi ridj : Nat, s.threads[i]? = some (Phase.fetching ridi) →
      s.threads[j]? = some (Phase.fetching ridj) → i = j) ∧
    s.fetchCount = s.records.length ∧
    ((∀ (rid : Nat) (r : SFRecord), s.records[rid]? = some r → r.done = false) →
      s.fetchCount ≤ 1) ∧
    (∀ (i j rid : Nat) (ret1 ret2 : Option AggResult × Bool × Option String),
      s.threads[i]? = some (Phase.finished (some rid) ret1) →
      s.threads[j]? = some (Phase.finished (some rid) ret2) → ret1 = ret2) := by
  have hinv := SFInv_reachable hreach
  refine ⟨hinv.fetchUnique, hinv.countEq, ?_, ?_⟩
  · intro hall
    rw [hinv.countEq]
    by_contra hgt
    push_neg at hgt
    have hlen0 : 0 < s.records.length := by omega
    have hlen1 : 1 < s.records.length := by omega
    have h0 := List.getElem?_eq_getElem hlen0
    have h1 := List.getElem?_eq_getElem hlen1
    have hi0 := hinv.undoneLive 0 _ h0 (hall 0 _ h0)
    have hi1 := hinv.undoneLive 1 _ h1 (hall 1 _ h1)
    rw [hi0] at hi1
    have := Option.some.inj hi1
    omega
  · intro i j rid ret1 ret2 h1 h2
    obtain ⟨r1, hr1, -, hret1⟩ := hinv.finishedRecord i rid ret1 h1
    obtain ⟨r2, hr2, -, hret2⟩ := hinv.finishedRecord j rid ret2 h2
    rw [hr1] at hr2
    rw [hret1, hret2, Option.some.inj hr2]

/-- The result the demonstration leader fetches. -/
def wRes : AggResult := ⟨[], 3, 3, 0⟩

/-- Demonstration states: caller 0 leads, caller 1 joins as waiter, the
leader completes successfully and stores, the waiter observes. -/
def sfW1 : SFState :=
  ⟨[Phase.fetching 0, Phase.start], [⟨false, none, none⟩], some 0, none, 1⟩

def sfW2 : SFState :=
  ⟨[Phase.fetching 0, Phase.waiting 0], [⟨false, none, none⟩], some 0, none, 1⟩

def sfW3 : SFState :=
  ⟨[Phase.finished (some 0) (some wRes, false, none), Phase.waiting 0],
    [⟨true, some wRes, none⟩], none, some wRes, 1⟩

def sfW4 : SFState :=
  ⟨[Phase.finished (some 0) (some wRes, false, none),
      Phase.finished (some 0) (some wRes, false, none)],
    [⟨true, some wRes, none⟩], none, some wRes, 1⟩

/-- C9 witness: after a full single-flight round with one leader and one
waiter, the thunk ran exactly once per record and both callers returned the
same triple. -/
theorem c9_single_flight_witness :
    sfW4.fetchCount = sfW4.records.length ∧
    ((some wRes, false, (none : Option String)) =
      (some wRes, false, (none : Option String))) := by
  have hs1 : SFStep (SFInit 2 none) sfW1 :=
    SFStep.beginFetch (SFInit 2 none) 0 (by rfl) rfl
  have hs2 : SFStep sfW1 sfW2 := SFStep.beginWait sfW1 1 0 (by rfl) rfl
  have hs3 : SFStep sfW2 sfW3 := SFStep.completeFetch sfW2 0 0 (some wRes) none (by rfl)
  have hs4 : SFStep sfW3 sfW4 :=
    SFStep.observe sfW3 1 0 ⟨true, some wRes, none⟩ (by rfl) (by rfl) rfl
  have hchain : Relation.ReflTransGen SFStep (SFInit 2 none) sfW4 :=
    Relation.ReflTransGen.head hs1 (Relation.ReflTransGen.head hs2
      (Relation.ReflTransGen.head hs3 (Relation.ReflTransGen.head hs4
        Relation.ReflTransGen.refl)))
  have h := c9_single_flight 2 none sfW4 hchain
  exact ⟨h.2.1, h.2.2.2 0 1 0 (some wRes, false, none) (some wRes, false, none)
    (by rfl) (by rfl)⟩
